import Mathlib

/-!
Verification of the Kura dual-pane file browser (Rust sources in `src/`)
against its natural-language specification.

The Rust code is shallowly embedded: every pure function is translated to a
Lean function, and the `run_app` event loop body (`src/input.rs`) becomes an
explicit step function on a `LoopState`.  The real filesystem is modelled by a
read oracle `Fs` (directory-listing and file-content maps); disk mutations
performed by copy/delete/rename are external effects that the in-memory state
only observes through subsequent reads, so each step takes the oracle as a
parameter and reachability quantifies over an arbitrary oracle at every step
(a sound over-approximation of a concurrently changing disk).

`usize` values are modelled as `Nat` with explicit saturation at `2^64 - 1`
where the source uses `saturating_mul` / `saturating_add`; the viewer offset
(`u16` in the source) is a `Nat` with explicit saturation at `2^16 - 1` and
explicit `% 2^16` truncation where the source casts `usize` to `u16`.
-/

namespace Kura

/-- An absolute filesystem path, as its list of components. -/
abbrev FsPath := List String

/-- Snapshot of one directory member, as obtained from `fs::read_dir`:
the parent directory, the final file name, and the metadata the sort
criteria consult (`None` models a failing `metadata()` call, matched by the
source's `unwrap_or` fallbacks). -/
structure Entry where
  parent : FsPath
  name : String
  isDir : Bool
  size : Option Nat
  modified : Option Nat
  created : Option Nat
deriving DecidableEq, Repr, Inhabited

/-- `DirEntry::path()`: the parent joined with the file name. -/
def Entry.path (e : Entry) : FsPath := e.parent ++ [e.name]

/-- Codepoint-lexicographic comparison of char lists.  On valid UTF-8 this
coincides with the byte order Rust uses to compare `OsString` file names. -/
def charsLE : List Char → List Char → Bool
  | [], _ => true
  | _ :: _, [] => false
  | a :: as, b :: bs =>
      if a.toNat < b.toNat then true
      else if b.toNat < a.toNat then false
      else charsLE as bs

/-- `OsString` / `str` ordering of two names. -/
def strLE (a b : String) : Bool := charsLE a.data b.data

/-- `str::to_lowercase` (the ASCII fragment relevant to the file names the
spec discusses). -/
def strLower (s : String) : String := ⟨s.data.map Char.toLower⟩

/-- `String::push`. -/
def strPush (s : String) (c : Char) : String := ⟨s.data ++ [c]⟩

/-- `String::pop` (drop the last char; no-op on the empty string). -/
def strPop (s : String) : String := ⟨s.data.dropLast⟩

/-- `content.lines().count()`: one line per `\n`-separated segment, with no
extra empty line for a trailing newline. -/
def linesCount (s : String) : Nat :=
  match s.data with
  | [] => 0
  | cs => ((if cs.getLast? = some '\n' then cs.dropLast else cs).count '\n') + 1

/-- Read oracle for the filesystem: directory listings, text decoding of
files (`fs::read_to_string`, `none` = not valid text or unreadable), and the
`Path::is_dir` test. -/
structure Fs where
  readDir : FsPath → Option (List Entry)
  readToString : FsPath → Option String
  isDirAt : FsPath → Bool

/-- `Path::parent()`: strip the last component; `none` at the root. -/
def parentPath : FsPath → Option FsPath
  | [] => none
  | xs => some xs.dropLast

/-- `Path::file_name()` of one of our absolute paths. -/
def fileNameOf (p : FsPath) : Option String := p.getLast?

/-- `Path::extension()` of a file name: the part after the last `.`,
`none` when there is no `.` past the first character (a leading `.` marks a
hidden file, not an extension). -/
def extOf (name : String) : Option String :=
  let cs := name.data
  if (cs.drop 1).contains '.' then
    some ⟨(cs.reverse.takeWhile (fun c => c ≠ '.')).reverse⟩
  else none

/-- `is_image` (src/fs_utils.rs): extension-based image test. -/
def is_image (p : FsPath) : Bool :=
  match (fileNameOf p).bind extOf |>.map strLower with
  | some ext =>
      ext = "png" || ext = "jpg" || ext = "jpeg" || ext = "gif" || ext = "bmp"
        || ext = "tiff" || ext = "tif" || ext = "webp"
  | none => false

/-- Substring containment, modelling Rust `str::contains`. -/
def strContains (s pat : String) : Bool :=
  (List.range (s.data.length + 1)).any fun i =>
    ((s.data.drop i).take pat.data.length = pat.data)

/-- Stable insertion step: `x` goes in front of the first element it is
`le` to, hence after every earlier element with an equal key. -/
def insertSorted (le : α → α → Bool) (x : α) : List α → List α
  | [] => [x]
  | y :: ys => if le x y then x :: y :: ys else y :: insertSorted le x ys

/-- Stable sort, modelling Rust's stable `sort_by` / `sort_by_key`.  A
stable sorted permutation is unique for a total preorder, so insertion sort
is extensionally the sort the source performs (chosen over mergesort to
keep the model kernel-computable). -/
def stableSortBy (le : α → α → Bool) : List α → List α
  | [] => []
  | x :: xs => insertSorted le x (stableSortBy le xs)

/-- `entries.sort_by_key(|e| e.file_name())` in `Pane::new`/`Pane::refresh`:
a stable sort by the raw (case-sensitive) file name. -/
def sortEntriesByName (es : List Entry) : List Entry :=
  stableSortBy (fun a b => strLE a.name b.name) es

/-- One pane (src/app.rs): the listing, cursor, directory and mark set.
The source's `HashSet<usize>` becomes a `Finset ℕ`; where the source iterates
the hash set in unspecified order, the model iterates in increasing index
order (a determinization of that nondeterminism). -/
structure Pane where
  items : List Entry
  selected : Nat
  current_dir : FsPath
  marked : Finset Nat
deriving DecidableEq

/-- `Pane::new` (src/app.rs): list, sort by file name, cursor 0, no marks. -/
def Pane.new (fs : Fs) (path : FsPath) : Option Pane :=
  (fs.readDir path).map fun es =>
    { items := sortEntriesByName es, selected := 0, current_dir := path, marked := ∅ }

/-- `Pane::refresh` (src/app.rs): on success replace the items (sorted by
file name), reset the cursor and clear the marks; on failure (`Err` from
`read_dir`) leave the pane untouched.  The `Bool` is `is_ok()`. -/
def Pane.refresh (fs : Fs) (p : Pane) : Pane × Bool :=
  match fs.readDir p.current_dir with
  | some es =>
      ({ p with items := sortEntriesByName es, selected := 0, marked := ∅ }, true)
  | none => (p, false)

/-- `App::on_up`'s pane effect: move the cursor up one, stopping at 0. -/
def Pane.onUp (p : Pane) : Pane :=
  if p.selected > 0 then { p with selected := p.selected - 1 } else p

/-- `App::on_down`'s pane effect: move down one, stopping at the last entry. -/
def Pane.onDown (p : Pane) : Pane :=
  if p.selected + 1 < p.items.length then { p with selected := p.selected + 1 } else p

/-- `toggle_mark` (src/actions.rs): flip membership of `selected` in `marked`. -/
def toggle_mark (p : Pane) : Pane :=
  if p.selected ∈ p.marked then { p with marked := p.marked.erase p.selected }
  else { p with marked := insert p.selected p.marked }

/-- The selection-resolution rule shared verbatim by `copy_selection`
(src/actions.rs) and the `x`/`X` handlers (src/input.rs): the paths of the
entries at the marked indices if any index is marked, else the path of the
entry at `selected` if it exists, else nothing.  Marked indices are visited
through the bounds-checked `items.get(i)`. -/
def resolvedTargets (p : Pane) : List FsPath :=
  if p.marked ≠ ∅ then
    (p.marked.sort (· ≤ ·)).filterMap fun i => (p.items.get? i).map Entry.path
  else
    match p.items.get? p.selected with
    | some e => [e.path]
    | none => []

/-- The four sort criteria (src/fs_utils.rs). -/
inductive SortBy
  | modified
  | created
  | size
  | name
deriving DecidableEq, Repr

/-- `SORT_OPTIONS` (src/fs_utils.rs). -/
def SORT_OPTIONS : List String :=
  ["Last modified date", "Creation date", "File size", "Alphabetical"]

/-- The comparison each criterion sorts by (src/fs_utils.rs `apply_sort`):
timestamps ascending with epoch-zero fallback for missing metadata, size
descending (`Reverse`) with 0 fallback, lowercased name ascending. -/
def sortLE : SortBy → Entry → Entry → Bool
  | .modified => fun a b => a.modified.getD 0 ≤ b.modified.getD 0
  | .created => fun a b => a.created.getD 0 ≤ b.created.getD 0
  | .size => fun a b => b.size.getD 0 ≤ a.size.getD 0
  | .name => fun a b => strLE (strLower a.name) (strLower b.name)

/-- `apply_sort` (src/fs_utils.rs): stable sort of the items by the chosen
criterion key alone, then reset cursor and marks. -/
def apply_sort (p : Pane) (sb : SortBy) : Pane :=
  { p with items := stableSortBy (sortLE sb) p.items, selected := 0, marked := ∅ }

/-- `find_match` (src/fs_utils.rs): first index after `start` (wrapping)
whose lowercased name contains the lowercased query. -/
def find_match (entries : List Entry) (query : String) (start : Nat) : Option Nat :=
  if query = "" || entries.isEmpty then none
  else
    let q := strLower query
    let total := entries.length
    (List.range' 1 total).findSome? fun i =>
      let idx := (start + i) % total
      match entries.get? idx with
      | some e => if strContains (strLower e.name) q then some idx else none
      | none => none

/-- Which pane is active (src/mode.rs). -/
inductive PaneType
  | left
  | right
deriving DecidableEq, Repr

/-- The interaction mode (src/mode.rs), one variant per interaction state.
The viewer offset is the `u16` scroll offset. -/
inductive Mode
  | filer
  | visual (anchor : Nat)
  | viewer (content : String) (title : String) (offset : Nat)
  | confirmDelete (items : List FsPath)
  | search (query : String)
  | rename (original : String) (buffer : String)
  | sortPick (selected : Nat)
deriving DecidableEq

/-- The session (src/app.rs `App`). -/
structure App where
  left : Pane
  right : Pane
  active : PaneType
  mode : Mode
  clipboard : List FsPath
deriving DecidableEq

/-- `App::new`: both panes list the working directory. -/
def App.new (fs : Fs) (cwd : FsPath) : Option App :=
  (Pane.new fs cwd).map fun p =>
    { left := p, right := p, active := .left, mode := .filer, clipboard := [] }

/-- `App::current_pane_mut`, read side. -/
def App.currentPane (a : App) : Pane :=
  match a.active with
  | .left => a.left
  | .right => a.right

/-- `App::current_pane_mut`, write side: replace the active pane. -/
def App.setCurrentPane (a : App) (p : Pane) : App :=
  match a.active with
  | .left => { a with left := p }
  | .right => { a with right := p }

/-- `App::switch_pane`. -/
def App.switchPane (a : App) : App :=
  { a with active := match a.active with | .left => .right | .right => .left }

/-- `App::on_up`. -/
def App.onUp (a : App) : App := a.setCurrentPane a.currentPane.onUp

/-- `App::on_down`. -/
def App.onDown (a : App) : App := a.setCurrentPane a.currentPane.onDown

/-- `App::on_left`: go to the parent directory (if any) and refresh;
a failed refresh keeps the old listing (`let _ = pane.refresh()`). -/
def App.onLeft (fs : Fs) (a : App) : App :=
  let p := a.currentPane
  match parentPath p.current_dir with
  | some par => a.setCurrentPane (Pane.refresh fs { p with current_dir := par }).1
  | none => a

/-- `App::on_enter`: enter a directory (refresh, failure tolerated) or open a
text file in the viewer; no entry or undecodable content is a no-op. -/
def App.onEnter (fs : Fs) (a : App) : App :=
  let p := a.currentPane
  match p.items.get? p.selected with
  | none => a
  | some e =>
      let path := e.path
      if fs.isDirAt path then
        a.setCurrentPane (Pane.refresh fs { p with current_dir := path }).1
      else
        match fs.readToString path with
        | some content =>
            { a with mode := .viewer content ((fileNameOf path).getD "") 0 }
        | none => a

/-- `copy_selection` (src/actions.rs): resolve the selection, clear the
marks, and replace the clipboard with the resolved paths. -/
def copy_selection (a : App) : App :=
  let p := a.currentPane
  let items := resolvedTargets p
  let a := a.setCurrentPane { p with marked := ∅ }
  { a with clipboard := items }

/-- `paste` (src/actions.rs): the disk copies are external effects (visible
to the model only through later `Fs` reads); the in-memory effect is the
final `refresh` of the active pane.  The clipboard is read, never written. -/
def paste (fs : Fs) (a : App) : App :=
  a.setCurrentPane (Pane.refresh fs a.currentPane).1

/-- `delete_items` (src/actions.rs): the disk deletions are external
effects; the in-memory effect is the final `refresh` of the active pane. -/
def delete_items (fs : Fs) (a : App) (_items : List FsPath) : App :=
  a.setCurrentPane (Pane.refresh fs a.currentPane).1

/-- Key events, as the subset of `crossterm::event::KeyCode` the
dispatcher distinguishes. -/
inductive Key
  | char (c : Char)
  | enter
  | esc
  | backspace
  | up
  | down
deriving DecidableEq, Repr

/-- The mutable locals of the `run_app` loop (src/input.rs): the session,
the pending numeric count, and the pending-`g` flag. -/
structure LoopState where
  app : App
  pfx : Nat
  lastKeyG : Bool
deriving DecidableEq

/-- Outcome of one loop iteration: normal continuation, `q` quit, or the
panic of the unguarded `pane.items[pane.selected]` in the rename commit. -/
inductive StepResult
  | next (st : LoopState)
  | quit
  | panic
deriving DecidableEq

/-- `usize::MAX`. -/
def usizeMax : Nat := 2 ^ 64 - 1

/-- `prefix.saturating_mul(10).saturating_add(d)` on `usize`. -/
def satMulAdd10 (p d : Nat) : Nat := min (min (p * 10) usizeMax + d) usizeMax

/-- `u16::MAX`. -/
def u16Max : Nat := 2 ^ 16 - 1

/-- Does the mode accumulate digit prefixes (`Filer` or `Viewer`)? -/
def Mode.isFilerOrViewer : Mode → Bool
  | .filer => true
  | .viewer _ _ _ => true
  | _ => false

/-- The `lo..=hi` mark-insertion loop of the visual-mode handlers, applied
to a cleared set. -/
def rangeMarks (lo hi : Nat) : Finset Nat :=
  (List.range' lo (hi + 1 - lo)).foldr insert ∅

/-- Visual-mode block (src/input.rs lines 115-155): `j`/`k` move `count`
times and recompute `marked` as the inclusive range between the anchor and
the new cursor; `V`/`Esc` return to `Filer` leaving the marks intact. -/
def visualStep (a : App) (anchor : Nat) (k : Key) (count : Nat) : App :=
  match k with
  | .char c =>
      if c = 'j' then
        let a := App.onDown^[count] a
        let p := a.currentPane
        let e := p.selected
        let lohi := if anchor ≤ e then (anchor, e) else (e, anchor)
        a.setCurrentPane { p with marked := rangeMarks lohi.1 lohi.2 }
      else if c = 'k' then
        let a := App.onUp^[count] a
        let p := a.currentPane
        let e := p.selected
        let lohi := if anchor ≤ e then (anchor, e) else (e, anchor)
        a.setCurrentPane { p with marked := rangeMarks lohi.1 lohi.2 }
      else if c = 'V' then { a with mode := .filer }
      else a
  | .esc => { a with mode := .filer }
  | _ => a

/-- The rename commit (src/input.rs lines 228-245): the unguarded
`pane.items[pane.selected]` panics when out of bounds; otherwise the disk
rename is an external effect, the pane is refreshed, and on a successful
refresh the entry now carrying the new name is re-selected. -/
def commitRename (fs : Fs) (st : LoopState) (new_name : String) : StepResult :=
  let a := st.app
  let p := a.currentPane
  match p.items.get? p.selected with
  | none => .panic
  | some _ =>
      let pr := Pane.refresh fs p
      let p2 :=
        if pr.2 then
          match pr.1.items.findIdx? (fun e => e.name = new_name) with
          | some pos => { pr.1 with selected := pos }
          | none => pr.1
        else pr.1
      .next { st with app := a.setCurrentPane p2 }

/-- The `Filer` arm of the closing `match` (src/input.rs lines 271-369). -/
def filerStep (fs : Fs) (st : LoopState) (k : Key) (count : Nat) : StepResult :=
  let a := st.app
  match k with
  | .char c =>
      if c = 'j' then .next { st with app := App.onDown^[count] a }
      else if c = 'k' then .next { st with app := App.onUp^[count] a }
      else if c = 'x' then
        .next { st with app := { a with mode := .confirmDelete (resolvedTargets a.currentPane) } }
      else if c = 'X' then
        .next { st with app := delete_items fs a (resolvedTargets a.currentPane) }
      else if c = 'h' then
        .next { st with app := match a.active with
          | .left => App.onLeft fs a
          | .right => a.switchPane }
      else if c = 'l' then
        .next { st with app := match a.active with
          | .left => a.switchPane
          | .right => App.onLeft fs a }
      else if c = 'V' then
        let p := a.currentPane
        let anchor := p.selected
        let a := a.setCurrentPane { p with marked := insert anchor ∅ }
        .next { st with app := { a with mode := .visual anchor } }
      else if c = '/' then .next { st with app := { a with mode := .search "" } }
      else if c = 'r' then
        .next { st with app :=
          match a.currentPane.items.get? a.currentPane.selected with
          | some e => { a with mode := .rename e.name e.name }
          | none => a }
      else if c = 's' then .next { st with app := { a with mode := .sortPick 0 } }
      else if c = 'v' then .next { st with app := a.setCurrentPane (toggle_mark a.currentPane) }
      else if c = 'y' then .next { st with app := copy_selection a }
      else if c = 'p' then .next { st with app := paste fs a }
      else .next st
  | .enter =>
      let p := a.currentPane
      let imgPath :=
        match p.items.get? p.selected with
        | some e => (is_image e.path, e.path)
        | none => (false, ([] : FsPath))
      if imgPath.1 then
        -- `show_image` blocks externally; the session effect is the pane switch
        .next { st with app := a.switchPane }
      else .next { st with app := App.onEnter fs a }
  | _ => .next st

/-- The closing `match &mut app.mode` of the loop body
(src/input.rs lines 253-371). -/
def modeDispatch (fs : Fs) (st : LoopState) (k : Key) (count : Nat) : StepResult :=
  let a := st.app
  match a.mode with
  | .confirmDelete items =>
      match k with
      | .char c =>
          if c = 'y' then
            .next { st with app := delete_items fs { a with mode := .filer } items }
          else if c = 'n' then .next { st with app := { a with mode := .filer } }
          else .next st
      | .enter => .next { st with app := delete_items fs { a with mode := .filer } items }
      | .esc => .next { st with app := { a with mode := .filer } }
      | _ => .next st
  | .viewer content title offset =>
      match k with
      | .char c =>
          if c = 'j' then
            .next { st with app :=
              { a with mode := .viewer content title (min (offset + count % 2 ^ 16) u16Max) } }
          else if c = 'k' then
            .next { st with app :=
              { a with mode := .viewer content title (offset - count % 2 ^ 16) } }
          else .next st
      | .enter => .next { st with app := { a with mode := .filer } }
      | _ => .next st
  | .filer => filerStep fs st k count
  | _ => .next st

/-- The mode blocks after the `gg`/`G` section (src/input.rs lines 114-251):
visual, search (with the live jump), rename and sort editing, then the
rename/sort commits, then the closing mode dispatch. -/
def dispatch (fs : Fs) (st : LoopState) (k : Key) (count : Nat) : StepResult :=
  let a := st.app
  match a.mode with
  | .visual anchor => .next { st with app := visualStep a anchor k count }
  | .search q =>
      match k with
      | .enter => modeDispatch fs { st with app := { a with mode := .filer } } k count
      | .esc => modeDispatch fs { st with app := { a with mode := .filer } } k count
      | _ =>
          let q' :=
            match k with
            | .char c => strPush q c
            | .backspace => strPop q
            | _ => q
          let a := { a with mode := .search q' }
          let p := a.currentPane
          let a :=
            match find_match p.items q' p.selected with
            | some idx => a.setCurrentPane { p with selected := idx }
            | none => a
          .next { st with app := a }
  | .rename original buffer =>
      match k with
      | .char c => .next { st with app := { a with mode := .rename original (strPush buffer c) } }
      | .backspace =>
          .next { st with app := { a with mode := .rename original (strPop buffer) } }
      | .enter => commitRename fs { st with app := { a with mode := .filer } } buffer
      | .esc =>
          -- falls through to the closing dispatch, where `Filer`+`Esc` is a no-op
          .next { st with app := { a with mode := .filer } }
      | _ => .next st
  | .sortPick selected =>
      match k with
      | .char c =>
          if c = 'j' then
            .next { st with app := { a with mode := .sortPick ((selected + 1) % SORT_OPTIONS.length) } }
          else if c = 'k' then
            .next { st with app :=
              { a with mode := .sortPick ((selected + SORT_OPTIONS.length - 1) % SORT_OPTIONS.length) } }
          else .next st
      | .down => .next { st with app := { a with mode := .sortPick ((selected + 1) % SORT_OPTIONS.length) } }
      | .up =>
          .next { st with app :=
            { a with mode := .sortPick ((selected + SORT_OPTIONS.length - 1) % SORT_OPTIONS.length) } }
      | .enter =>
          let sb : SortBy :=
            match selected with
            | 0 => .modified
            | 1 => .created
            | 2 => .size
            | _ => .name
          let a := { a with mode := Mode.filer }
          .next { st with app := a.setCurrentPane (apply_sort a.currentPane sb) }
      | .esc => .next { st with app := { a with mode := .filer } }
      | _ => .next st
  | _ => modeDispatch fs st k count

/-- The loop body after the count is consumed (src/input.rs lines 77-371):
the `gg`/`G` two-key handling for character keys (only character keys touch
`last_key_g`; `g` and `G` short-circuit with `continue`), then the mode
blocks. -/
def stepAfterCount (fs : Fs) (st : LoopState) (k : Key) (count : Nat) : StepResult :=
  match k with
  | .char c =>
      if c = 'g' then
        if st.lastKeyG then
          let a :=
            match st.app.mode with
            | .filer => st.app.setCurrentPane { st.app.currentPane with selected := 0 }
            | .viewer content title _ => { st.app with mode := .viewer content title 0 }
            | _ => st.app
          .next { st with app := a, lastKeyG := false }
        else .next { st with lastKeyG := true }
      else if c = 'G' then
        let a :=
          match st.app.mode with
          | .filer =>
              st.app.setCurrentPane
                { st.app.currentPane with selected := st.app.currentPane.items.length - 1 }
          | .viewer content title _ =>
              { st.app with mode := .viewer content title ((linesCount content - 1) % 2 ^ 16) }
          | _ => st.app
        .next { st with app := a, lastKeyG := false }
      else dispatch fs { st with lastKeyG := false } k count
  | _ => dispatch fs st k count

/-- One iteration of the `run_app` loop (src/input.rs lines 57-371) on a key
event: `q` quits from any state; digits in `Filer`/`Viewer` accumulate the
count; otherwise the count is taken (default 1), the pending count cleared,
and the key dispatched. -/
def step (fs : Fs) (st : LoopState) (k : Key) : StepResult :=
  if k = Key.char 'q' then .quit
  else
    match k with
    | .char c =>
        if st.app.mode.isFilerOrViewer && c.isDigit then
          .next { st with pfx := satMulAdd10 st.pfx (c.toNat - '0'.toNat) }
        else
          stepAfterCount fs { st with pfx := 0 } k (if st.pfx > 0 then st.pfx else 1)
    | _ => stepAfterCount fs { st with pfx := 0 } k (if st.pfx > 0 then st.pfx else 1)

/-- Convenience: the successor state of a non-quitting, non-panicking step
(identity on `quit`/`panic`). -/
def stepState (fs : Fs) (st : LoopState) (k : Key) : LoopState :=
  match step fs st k with
  | .next st' => st'
  | _ => st

/-- Run a list of keys from a state, stopping at quit/panic. -/
def runKeys (fs : Fs) (st : LoopState) : List Key → LoopState
  | [] => st
  | k :: ks =>
      match step fs st k with
      | .next st' => runKeys fs st' ks
      | _ => st

/-- The states the session can be in: the `App::new` state (listing
succeeded; the loop locals start at `prefix = 0`, `last_key_g = false`),
closed under loop iterations, with an arbitrary filesystem oracle at each
step. -/
inductive Reach : LoopState → Prop
  | new (fs : Fs) (cwd : FsPath) (a : App) :
      App.new fs cwd = some a → Reach ⟨a, 0, false⟩
  | step (fs : Fs) (k : Key) (st st' : LoopState) :
      Reach st → step fs st k = .next st' → Reach st'

/-! ### Invariants

`SelOk`: the cursor is a valid index, or 0 on an empty listing.
`MarkOk`: on a non-empty listing every marked index is in bounds (on an
empty listing the source can leave index 0 marked, see `v`/`V`).
`ModeOk`: the visual anchor is cursor-like, and in rename mode the cursor
points at an existing entry (what the unguarded commit indexing needs). -/

def SelOk (p : Pane) : Prop := p.selected < max 1 p.items.length

def MarkOk (p : Pane) : Prop := p.items ≠ [] → ∀ i ∈ p.marked, i < p.items.length

def PaneOk (p : Pane) : Prop := SelOk p ∧ MarkOk p

def PanesOk (a : App) : Prop := PaneOk a.left ∧ PaneOk a.right

def ModeOk (a : App) : Prop :=
  match a.mode with
  | .visual anchor => anchor < max 1 a.currentPane.items.length
  | .rename _ _ => a.currentPane.selected < a.currentPane.items.length
  | _ => True

def AppOk (a : App) : Prop := PanesOk a ∧ ModeOk a

def Inv (st : LoopState) : Prop := AppOk st.app

/-- A step outcome is sound: it is not the rename-commit panic, and any
successor state satisfies the session invariant. -/
def ResOk (r : StepResult) : Prop :=
  r ≠ .panic ∧ ∀ st', r = .next st' → AppOk st'.app

/-- A `j`/`k` move sequence on one pane: each element is
(down?, repeat count), applied as the corresponding handler applies
`on_down`/`on_up` `count` times. -/
def applyMoves (p : Pane) (ms : List (Bool × Nat)) : Pane :=
  ms.foldl (fun q m => (if m.1 then Pane.onDown else Pane.onUp)^[m.2] q) p

/-! ### Concrete fixtures used by witnesses and counterexamples -/

def entryA : Entry := ⟨[], "a", false, some 1024, some 5, some 5⟩

def entryB : Entry := ⟨[], "B", false, some 512, some 7, some 7⟩

def entryC : Entry := ⟨[], "c", false, some 512, some 3, some 3⟩

def entryTxt : Entry := ⟨[], "f.txt", false, some 1, some 1, some 1⟩

/-- A filesystem whose root is an empty directory. -/
def fsEmpty : Fs := ⟨fun p => if p = [] then some [] else none, fun _ => none, fun _ => false⟩

/-- A filesystem whose root holds three plain files `a`, `B`, `c`. -/
def fsThree : Fs :=
  ⟨fun p => if p = [] then some [entryA, entryB, entryC] else none, fun _ => none, fun _ => false⟩

/-- A filesystem whose root holds one text file `f.txt` with content "a". -/
def fsTxt : Fs :=
  ⟨fun p => if p = [] then some [entryTxt] else none,
    fun p => if p = ["f.txt"] then some "a" else none, fun _ => false⟩

def paneEmpty : Pane := ⟨[], 0, [], ∅⟩

def appEmpty : App := ⟨paneEmpty, paneEmpty, .left, .filer, []⟩

def stEmpty : LoopState := ⟨appEmpty, 0, false⟩

/-- The three files in refresh order (byte order: `B` < `a` < `c`). -/
def paneThree : Pane := ⟨[entryB, entryA, entryC], 0, [], ∅⟩

def appThree : App := ⟨paneThree, paneThree, .left, .filer, []⟩

def stThree : LoopState := ⟨appThree, 0, false⟩

def paneTxt : Pane := ⟨[entryTxt], 0, [], ∅⟩

def appTxt : App := ⟨paneTxt, paneTxt, .left, .filer, []⟩

def stTxt : LoopState := ⟨appTxt, 0, false⟩

/-- The state after pressing `v` on an empty listing: index 0 is marked
although the listing has no entries. -/
def c1State : LoopState := ⟨⟨⟨[], 0, [], {0}⟩, paneEmpty, .left, .filer, []⟩, 0, false⟩

/-- Fixture for the resolved-targets witness: cursor at 1, marks {0, 2}. -/
def paneC2 : Pane := ⟨[entryB, entryA, entryC], 1, [], {0, 2}⟩

def entryTieB : Entry := ⟨[], "b", false, some 10, some 1, some 1⟩

def entryTieA : Entry := ⟨[], "a", false, some 10, some 2, some 2⟩

/-- Two entries with equal sizes, names in reverse alphabetical order. -/
def paneTie : Pane := ⟨[entryTieB, entryTieA], 0, [], ∅⟩

theorem length_insertSorted (le : α → α → Bool) (x : α) (l : List α) :
    (insertSorted le x l).length = l.length + 1 := by
  induction l with
  | nil => rfl
  | cons y ys ih =>
      unfold insertSorted
      split <;> simp [ih]

theorem length_stableSortBy (le : α → α → Bool) (l : List α) :
    (stableSortBy le l).length = l.length := by
  induction l with
  | nil => rfl
  | cons x xs ih => simp [stableSortBy, length_insertSorted, ih]

theorem perm_insertSorted (le : α → α → Bool) (x : α) (l : List α) :
    List.Perm (insertSorted le x l) (x :: l) := by
  induction l with
  | nil => exact List.Perm.refl _
  | cons y ys ih =>
      unfold insertSorted
      split
      · exact List.Perm.refl _
      · exact (ih.cons y).trans (List.Perm.swap x y ys)

theorem perm_stableSortBy (le : α → α → Bool) (l : List α) :
    List.Perm (stableSortBy le l) l := by
  induction l with
  | nil => exact List.Perm.refl _
  | cons x xs ih => exact (perm_insertSorted le x (stableSortBy le xs)).trans (ih.cons x)

theorem mem_insertSorted {le : α → α → Bool} {x a : α} {l : List α} :
    a ∈ insertSorted le x l ↔ a = x ∨ a ∈ l := by
  constructor
  · intro h
    have := (perm_insertSorted le x l).mem_iff.mp h
    simpa using this
  · intro h
    apply (perm_insertSorted le x l).mem_iff.mpr
    simpa using h

theorem sorted_insertSorted {le : α → α → Bool}
    (total : ∀ a b, le a b = true ∨ le b a = true)
    (htrans : ∀ a b c, le a b = true → le b c = true → le a c = true)
    (x : α) {l : List α} (h : l.Pairwise (fun a b => le a b = true)) :
    (insertSorted le x l).Pairwise (fun a b => le a b = true) := by
  induction l with
  | nil => simp [insertSorted]
  | cons y ys ih =>
      unfold insertSorted
      rcases List.pairwise_cons.mp h with ⟨hy, hys⟩
      split
      · next hxy =>
          refine List.pairwise_cons.mpr ⟨?_, h⟩
          intro b hb
          rcases List.mem_cons.mp hb with rfl | hb
          · exact hxy
          · exact htrans x y b hxy (hy b hb)
      · next hxy =>
          rcases total x y with h1 | h2
          · exact absurd h1 hxy
          · refine List.pairwise_cons.mpr ⟨?_, ih hys⟩
            intro b hb
            rcases mem_insertSorted.mp hb with rfl | hb
            · exact h2
            · exact hy b hb

theorem sorted_stableSortBy {le : α → α → Bool}
    (total : ∀ a b, le a b = true ∨ le b a = true)
    (htrans : ∀ a b c, le a b = true → le b c = true → le a c = true)
    (l : List α) :
    (stableSortBy le l).Pairwise (fun a b => le a b = true) := by
  induction l with
  | nil => simp [stableSortBy]
  | cons x xs ih => exact sorted_insertSorted total htrans x ih

theorem stableSortBy_of_sorted {le : α → α → Bool} {l : List α}
    (h : l.Pairwise (fun a b => le a b = true)) : stableSortBy le l = l := by
  induction l with
  | nil => rfl
  | cons x xs ih =>
      rcases List.pairwise_cons.mp h with ⟨hx, hxs⟩
      rw [stableSortBy, ih hxs]
      cases xs with
      | nil => rfl
      | cons y ys =>
          unfold insertSorted
          rw [if_pos (hx y (by simp))]

theorem currentPane_setCurrentPane (a : App) (p : Pane) :
    (a.setCurrentPane p).currentPane = p := by
  cases h : a.active <;> simp [App.setCurrentPane, App.currentPane, h]

theorem mode_setCurrentPane (a : App) (p : Pane) : (a.setCurrentPane p).mode = a.mode := by
  cases h : a.active <;> simp [App.setCurrentPane, h]

theorem active_setCurrentPane (a : App) (p : Pane) :
    (a.setCurrentPane p).active = a.active := by
  cases h : a.active <;> simp [App.setCurrentPane, h]

theorem clipboard_setCurrentPane (a : App) (p : Pane) :
    (a.setCurrentPane p).clipboard = a.clipboard := by
  cases h : a.active <;> simp [App.setCurrentPane, h]

theorem panesOk_setCurrentPane {a : App} {p : Pane} (h : PanesOk a) (hp : PaneOk p) :
    PanesOk (a.setCurrentPane p) := by
  cases ha : a.active <;>
    simp only [PanesOk, App.setCurrentPane, ha] at h ⊢ <;> exact ⟨by tauto, by tauto⟩

theorem paneOk_currentPane {a : App} (h : PanesOk a) : PaneOk a.currentPane := by
  cases ha : a.active
  · simpa [App.currentPane, ha] using h.1
  · simpa [App.currentPane, ha] using h.2

theorem panesOk_switchPane {a : App} (h : PanesOk a) : PanesOk a.switchPane := by
  simpa [PanesOk, App.switchPane] using h

theorem selOk_refresh (fs : Fs) (p : Pane) (h : PaneOk p) : PaneOk (Pane.refresh fs p).1 := by
  unfold Pane.refresh
  cases fs.readDir p.current_dir with
  | none => exact h
  | some es =>
      refine ⟨?_, ?_⟩
      · simp [SelOk]
      · intro _ i hi; simp at hi

theorem paneOk_onUp {p : Pane} (h : PaneOk p) : PaneOk p.onUp := by
  unfold Pane.onUp
  split
  · refine ⟨?_, ?_⟩
    · exact lt_of_le_of_lt (Nat.sub_le _ _) h.1
    · exact h.2
  · exact h

theorem paneOk_onDown {p : Pane} (h : PaneOk p) : PaneOk p.onDown := by
  unfold Pane.onDown
  split
  · next hlt =>
      refine ⟨?_, h.2⟩
      simp only [SelOk]
      omega
  · exact h

theorem items_onUp (p : Pane) : p.onUp.items = p.items := by
  unfold Pane.onUp; split <;> rfl

theorem items_onDown (p : Pane) : p.onDown.items = p.items := by
  unfold Pane.onDown; split <;> rfl

theorem marked_onUp (p : Pane) : p.onUp.marked = p.marked := by
  unfold Pane.onUp; split <;> rfl

theorem marked_onDown (p : Pane) : p.onDown.marked = p.marked := by
  unfold Pane.onDown; split <;> rfl

theorem dir_onUp (p : Pane) : p.onUp.current_dir = p.current_dir := by
  unfold Pane.onUp; split <;> rfl

theorem dir_onDown (p : Pane) : p.onDown.current_dir = p.current_dir := by
  unfold Pane.onDown; split <;> rfl

theorem paneOk_toggle_mark {p : Pane} (h : PaneOk p) : PaneOk (toggle_mark p) := by
  unfold toggle_mark
  split
  · exact ⟨h.1, fun hne i hi => h.2 hne i (Finset.mem_of_mem_erase hi)⟩
  · refine ⟨h.1, fun hne i hi => ?_⟩
    show i < p.items.length
    have hlen : p.items.length ≠ 0 := fun h0 => hne (List.eq_nil_of_length_eq_zero h0)
    rcases Finset.mem_insert.mp hi with hsel | hold
    · subst hsel
      have h1 := h.1
      simp only [SelOk] at h1
      omega
    · exact h.2 hne i hold

theorem paneOk_apply_sort (p : Pane) (sb : SortBy) : PaneOk (apply_sort p sb) := by
  unfold apply_sort
  cases sb <;>
    exact ⟨by simp [SelOk], fun _ i hi => by simp at hi⟩

theorem items_length_apply_sort (p : Pane) (sb : SortBy) :
    (apply_sort p sb).items.length = p.items.length := by
  unfold apply_sort
  cases sb <;> simp [length_stableSortBy]

/-- Generic preservation through `Function.iterate`. -/
theorem iterate_pres {α : Type _} (f : α → α) (P : α → Prop)
    (hf : ∀ x, P x → P (f x)) : ∀ (n : Nat) (x : α), P x → P (f^[n] x) := by
  intro n
  induction n with
  | zero => intro x hx; simpa using hx
  | succ m ih =>
      intro x hx
      rw [Function.iterate_succ_apply]
      exact ih (f x) (hf x hx)

theorem mem_foldr_insert (l : List Nat) (i : Nat) :
    i ∈ l.foldr (fun x s => insert x s) (∅ : Finset Nat) ↔ i ∈ l := by
  induction l with
  | nil => simp
  | cons x xs ih => simp [ih]

/-- The visual-mode insertion loop over `lo..=hi` yields the closed
interval. -/
theorem rangeMarks_eq_Icc (lo hi : Nat) : rangeMarks lo hi = Finset.Icc lo hi := by
  ext i
  unfold rangeMarks
  rw [mem_foldr_insert, List.mem_range', Finset.mem_Icc]
  constructor
  · rintro ⟨j, hj, rfl⟩; omega
  · intro h; exact ⟨i - lo, by omega, by omega⟩

theorem mem_rangeMarks {lo hi i : Nat} : i ∈ rangeMarks lo hi ↔ lo ≤ i ∧ i ≤ hi := by
  rw [rangeMarks_eq_Icc, Finset.mem_Icc]

/-- `find_match` only returns valid indices. -/
theorem find_match_lt {entries : List Entry} {q : String} {start idx : Nat}
    (h : find_match entries q start = some idx) : idx < entries.length := by
  unfold find_match at h
  split at h
  · exact absurd h (by simp)
  · next hcond =>
      obtain ⟨i, _, hf⟩ := List.exists_of_findSome?_eq_some h
      have hne : entries.length ≠ 0 := by
        intro h0
        simp only [Bool.or_eq_true, decide_eq_true_eq, List.isEmpty_iff] at hcond
        exact hcond (Or.inr (List.eq_nil_of_length_eq_zero h0))
      simp only at hf
      split at hf
      · split at hf
        · cases hf
          exact Nat.mod_lt _ (Nat.pos_of_ne_zero hne)
        · cases hf
      · cases hf

/-- `position`/`findIdx?` only returns valid indices. -/
theorem findIdx?_lt {α : Type _} {l : List α} {p : α → Bool} {i : Nat}
    (h : l.findIdx? p = some i) : i < l.length :=
  (List.findIdx?_eq_some_iff_findIdx_eq.mp h).1

theorem mode_onUp (a : App) : a.onUp.mode = a.mode := by
  simp [App.onUp, mode_setCurrentPane]

theorem mode_onDown (a : App) : a.onDown.mode = a.mode := by
  simp [App.onDown, mode_setCurrentPane]

theorem active_onUp (a : App) : a.onUp.active = a.active := by
  simp [App.onUp, active_setCurrentPane]

theorem active_onDown (a : App) : a.onDown.active = a.active := by
  simp [App.onDown, active_setCurrentPane]

theorem clipboard_onUp (a : App) : a.onUp.clipboard = a.clipboard := by
  simp [App.onUp, clipboard_setCurrentPane]

theorem clipboard_onDown (a : App) : a.onDown.clipboard = a.clipboard := by
  simp [App.onDown, clipboard_setCurrentPane]

theorem currentPane_onUp (a : App) : a.onUp.currentPane = a.currentPane.onUp := by
  simp [App.onUp, currentPane_setCurrentPane]

theorem currentPane_onDown (a : App) : a.onDown.currentPane = a.currentPane.onDown := by
  simp [App.onDown, currentPane_setCurrentPane]

theorem panesOk_onUp {a : App} (h : PanesOk a) : PanesOk a.onUp :=
  panesOk_setCurrentPane h (paneOk_onUp (paneOk_currentPane h))

theorem panesOk_onDown {a : App} (h : PanesOk a) : PanesOk a.onDown :=
  panesOk_setCurrentPane h (paneOk_onDown (paneOk_currentPane h))

/-- What an iterated cursor move preserves: the panes' well-formedness, the
mode, the active pane, and the current pane's listing. -/
theorem iterate_move_facts (f : App → App)
    (hf : f = App.onUp ∨ f = App.onDown) (n : Nat) (a : App) :
    PanesOk a →
      PanesOk (f^[n] a) ∧ (f^[n] a).mode = a.mode ∧ (f^[n] a).active = a.active ∧
        (f^[n] a).currentPane.items = a.currentPane.items ∧
        (f^[n] a).currentPane.marked = a.currentPane.marked ∧
        (f^[n] a).clipboard = a.clipboard := by
  intro hOk
  have key : ∀ b : App,
      (PanesOk b ∧ b.mode = a.mode ∧ b.active = a.active ∧
        b.currentPane.items = a.currentPane.items ∧
        b.currentPane.marked = a.currentPane.marked ∧ b.clipboard = a.clipboard) →
      (PanesOk (f b) ∧ (f b).mode = a.mode ∧ (f b).active = a.active ∧
        (f b).currentPane.items = a.currentPane.items ∧
        (f b).currentPane.marked = a.currentPane.marked ∧ (f b).clipboard = a.clipboard) := by
    rintro b ⟨h1, h2, h3, h4, h5, h6⟩
    rcases hf with rfl | rfl
    · exact ⟨panesOk_onUp h1, by rw [mode_onUp, h2], by rw [active_onUp, h3],
        by rw [currentPane_onUp, items_onUp, h4],
        by rw [currentPane_onUp, marked_onUp, h5], by rw [clipboard_onUp, h6]⟩
    · exact ⟨panesOk_onDown h1, by rw [mode_onDown, h2], by rw [active_onDown, h3],
        by rw [currentPane_onDown, items_onDown, h4],
        by rw [currentPane_onDown, marked_onDown, h5], by rw [clipboard_onDown, h6]⟩
  exact iterate_pres f _ key n a ⟨hOk, rfl, rfl, rfl, rfl, rfl⟩

theorem resOk_next {st : LoopState} (h : AppOk st.app) : ResOk (.next st) :=
  ⟨by simp, fun st' hst' => by cases hst'; exact h⟩

theorem resOk_quit : ResOk .quit := ⟨by simp, fun st' hst' => by cases hst'⟩

theorem modeOk_filer {a : App} (h : a.mode = .filer) : ModeOk a := by
  unfold ModeOk
  rw [h]
  exact trivial

theorem modeOk_viewer {a : App} {c t : String} {o : Nat}
    (h : a.mode = .viewer c t o) : ModeOk a := by
  unfold ModeOk
  rw [h]
  exact trivial

theorem paneOk_marked_empty {p : Pane} (h : SelOk p) :
    PaneOk { p with marked := (∅ : Finset Nat) } :=
  ⟨h, fun _ i hi => by simp at hi⟩

theorem paneOk_set_selected {p : Pane} {i : Nat}
    (hi : i < p.items.length) (h : MarkOk p) : PaneOk { p with selected := i } :=
  ⟨Nat.lt_of_lt_of_le hi (Nat.le_max_right 1 _), h⟩

theorem paneOk_sel_zero {p : Pane} (h : MarkOk p) : PaneOk { p with selected := 0 } :=
  ⟨Nat.lt_of_lt_of_le Nat.one_pos (Nat.le_max_left 1 _), h⟩

theorem mode_delete_items (fs : Fs) (a : App) (l : List FsPath) :
    (delete_items fs a l).mode = a.mode := mode_setCurrentPane _ _

theorem panesOk_delete_items (fs : Fs) {a : App} (l : List FsPath) (h : PanesOk a) :
    PanesOk (delete_items fs a l) :=
  panesOk_setCurrentPane h (selOk_refresh _ _ (paneOk_currentPane h))

theorem mode_paste (fs : Fs) (a : App) : (paste fs a).mode = a.mode := mode_setCurrentPane _ _

theorem panesOk_paste (fs : Fs) {a : App} (h : PanesOk a) : PanesOk (paste fs a) :=
  panesOk_setCurrentPane h (selOk_refresh _ _ (paneOk_currentPane h))

theorem mode_copy_selection (a : App) : (copy_selection a).mode = a.mode := by
  unfold copy_selection
  simp [mode_setCurrentPane]

theorem panesOk_copy_selection {a : App} (h : PanesOk a) : PanesOk (copy_selection a) := by
  unfold copy_selection
  have hp := paneOk_currentPane h
  have h1 : PanesOk (a.setCurrentPane { a.currentPane with marked := (∅ : Finset Nat) }) :=
    panesOk_setCurrentPane h (paneOk_marked_empty hp.1)
  exact h1

theorem mode_onLeft (fs : Fs) (a : App) : (App.onLeft fs a).mode = a.mode := by
  simp only [App.onLeft]
  cases h : parentPath a.currentPane.current_dir <;> simp [h, mode_setCurrentPane]

theorem panesOk_onLeft (fs : Fs) {a : App} (h : PanesOk a) : PanesOk (App.onLeft fs a) := by
  simp only [App.onLeft]
  cases hp : parentPath a.currentPane.current_dir with
  | none => exact h
  | some par =>
      have hcur := paneOk_currentPane h
      exact panesOk_setCurrentPane h (selOk_refresh fs _ hcur)

theorem appOk_onEnter (fs : Fs) {a : App} (hOk : AppOk a) (hm : a.mode = .filer) :
    AppOk (App.onEnter fs a) := by
  obtain ⟨hPanes, _⟩ := hOk
  simp only [App.onEnter]
  cases hget : a.currentPane.items.get? a.currentPane.selected with
  | none => exact ⟨hPanes, modeOk_filer hm⟩
  | some e =>
      simp only
      split
      · exact ⟨panesOk_setCurrentPane hPanes (selOk_refresh _ _ (paneOk_currentPane hPanes)),
          modeOk_filer (by rw [mode_setCurrentPane, hm])⟩
      · cases fs.readToString e.path with
        | none => exact ⟨hPanes, modeOk_filer hm⟩
        | some content => exact ⟨hPanes, trivial⟩

theorem appOk_mode_update {a : App} (hPanes : PanesOk a) (m : Mode)
    (hm : ModeOk { a with mode := m }) : AppOk { a with mode := m } :=
  ⟨⟨hPanes.1, hPanes.2⟩, hm⟩

theorem currentPane_mode_update (a : App) (m : Mode) :
    App.currentPane { a with mode := m } = a.currentPane := by
  cases h : a.active <;> simp [App.currentPane, h]

theorem filerStep_char_j (fs : Fs) (st : LoopState) (count : Nat) :
    filerStep fs st (Key.char 'j') count =
      .next { st with app := App.onDown^[count] st.app } := rfl

theorem filerStep_char_k (fs : Fs) (st : LoopState) (count : Nat) :
    filerStep fs st (Key.char 'k') count =
      .next { st with app := App.onUp^[count] st.app } := rfl

theorem filerStep_char_x (fs : Fs) (st : LoopState) (count : Nat) :
    filerStep fs st (Key.char 'x') count =
      .next { st with app :=
        { st.app with mode := .confirmDelete (resolvedTargets st.app.currentPane) } } := rfl

theorem filerStep_char_X (fs : Fs) (st : LoopState) (count : Nat) :
    filerStep fs st (Key.char 'X') count =
      .next { st with app := delete_items fs st.app (resolvedTargets st.app.currentPane) } := rfl

theorem filerStep_char_h (fs : Fs) (st : LoopState) (count : Nat) :
    filerStep fs st (Key.char 'h') count =
      .next { st with app := match st.app.active with
        | .left => App.onLeft fs st.app
        | .right => st.app.switchPane } := rfl

theorem filerStep_char_l (fs : Fs) (st : LoopState) (count : Nat) :
    filerStep fs st (Key.char 'l') count =
      .next { st with app := match st.app.active with
        | .left => st.app.switchPane
        | .right => App.onLeft fs st.app } := rfl

theorem filerStep_char_V (fs : Fs) (st : LoopState) (count : Nat) :
    filerStep fs st (Key.char 'V') count =
      .next { st with app :=
        { st.app.setCurrentPane
            { st.app.currentPane with marked := insert st.app.currentPane.selected ∅ } with
          mode := .visual st.app.currentPane.selected } } := rfl

theorem filerStep_char_slash (fs : Fs) (st : LoopState) (count : Nat) :
    filerStep fs st (Key.char '/') count =
      .next { st with app := { st.app with mode := .search "" } } := rfl

theorem filerStep_char_r (fs : Fs) (st : LoopState) (count : Nat) :
    filerStep fs st (Key.char 'r') count =
      .next { st with app :=
        match st.app.currentPane.items.get? st.app.currentPane.selected with
        | some e => { st.app with mode := .rename e.name e.name }
        | none => st.app } := rfl

theorem filerStep_char_s (fs : Fs) (st : LoopState) (count : Nat) :
    filerStep fs st (Key.char 's') count =
      .next { st with app := { st.app with mode := .sortPick 0 } } := rfl

theorem filerStep_char_v (fs : Fs) (st : LoopState) (count : Nat) :
    filerStep fs st (Key.char 'v') count =
      .next { st with app := st.app.setCurrentPane (toggle_mark st.app.currentPane) } := rfl

theorem filerStep_char_y (fs : Fs) (st : LoopState) (count : Nat) :
    filerStep fs st (Key.char 'y') count =
      .next { st with app := copy_selection st.app } := rfl

theorem filerStep_char_p (fs : Fs) (st : LoopState) (count : Nat) :
    filerStep fs st (Key.char 'p') count =
      .next { st with app := paste fs st.app } := rfl

theorem filerStep_char_other (fs : Fs) (st : LoopState) (count : Nat) (c : Char)
    (n1 : ¬ c = 'j') (n2 : ¬ c = 'k') (n3 : ¬ c = 'x') (n4 : ¬ c = 'X')
    (n5 : ¬ c = 'h') (n6 : ¬ c = 'l') (n7 : ¬ c = 'V') (n8 : ¬ c = '/')
    (n9 : ¬ c = 'r') (n10 : ¬ c = 's') (n11 : ¬ c = 'v') (n12 : ¬ c = 'y')
    (n13 : ¬ c = 'p') :
    filerStep fs st (Key.char c) count = .next st := by
  simp only [filerStep]
  rw [if_neg n1, if_neg n2, if_neg n3, if_neg n4, if_neg n5, if_neg n6, if_neg n7,
    if_neg n8, if_neg n9, if_neg n10, if_neg n11, if_neg n12, if_neg n13]

theorem filerStep_nonchar (fs : Fs) (st : LoopState) (count : Nat) (k : Key)
    (h : k = Key.esc ∨ k = Key.backspace ∨ k = Key.up ∨ k = Key.down) :
    filerStep fs st k count = .next st := by
  rcases h with rfl | rfl | rfl | rfl <;> rfl

theorem filerStep_ok (fs : Fs) (st : LoopState) (k : Key) (count : Nat)
    (hOk : AppOk st.app) (hm : st.app.mode = .filer) :
    ResOk (filerStep fs st k count) := by
  obtain ⟨hPanes, -⟩ := hOk
  cases k with
  | char c =>
      by_cases h1 : c = 'j'
      · subst h1
        rw [filerStep_char_j]
        obtain ⟨hP, hMode, -, -, -, -⟩ :=
          iterate_move_facts App.onDown (Or.inr rfl) count st.app hPanes
        exact resOk_next ⟨hP, modeOk_filer (hMode.trans hm)⟩
      by_cases h2 : c = 'k'
      · subst h2
        rw [filerStep_char_k]
        obtain ⟨hP, hMode, -, -, -, -⟩ :=
          iterate_move_facts App.onUp (Or.inl rfl) count st.app hPanes
        exact resOk_next ⟨hP, modeOk_filer (hMode.trans hm)⟩
      by_cases h3 : c = 'x'
      · subst h3
        rw [filerStep_char_x]
        exact resOk_next (appOk_mode_update hPanes _ trivial)
      by_cases h4 : c = 'X'
      · subst h4
        rw [filerStep_char_X]
        exact resOk_next ⟨panesOk_delete_items fs (resolvedTargets st.app.currentPane) hPanes,
          modeOk_filer ((mode_delete_items fs st.app (resolvedTargets st.app.currentPane)).trans hm)⟩
      by_cases h5 : c = 'h'
      · subst h5
        rw [filerStep_char_h]
        cases ha : st.app.active
        · simp only [ha]
          exact resOk_next ⟨panesOk_onLeft fs hPanes, modeOk_filer ((mode_onLeft fs st.app).trans hm)⟩
        · simp only [ha]
          exact resOk_next ⟨panesOk_switchPane hPanes, modeOk_filer hm⟩
      by_cases h6 : c = 'l'
      · subst h6
        rw [filerStep_char_l]
        cases ha : st.app.active
        · simp only [ha]
          exact resOk_next ⟨panesOk_switchPane hPanes, modeOk_filer hm⟩
        · simp only [ha]
          exact resOk_next ⟨panesOk_onLeft fs hPanes, modeOk_filer ((mode_onLeft fs st.app).trans hm)⟩
      by_cases h7 : c = 'V'
      · subst h7
        rw [filerStep_char_V]
        apply resOk_next
        constructor
        · have hp := paneOk_currentPane hPanes
          refine panesOk_setCurrentPane (a := st.app) hPanes ⟨hp.1, ?_⟩
          intro hne i hi
          show i < st.app.currentPane.items.length
          have hlen : st.app.currentPane.items.length ≠ 0 :=
            fun h0 => hne (List.eq_nil_of_length_eq_zero h0)
          have hsel := hp.1
          simp only [SelOk] at hsel
          have : i = st.app.currentPane.selected := by
            simpa using Finset.mem_insert.mp hi
          omega
        · show ModeOk _
          unfold ModeOk
          simp only [currentPane_mode_update, currentPane_setCurrentPane]
          exact (paneOk_currentPane hPanes).1
      by_cases h8 : c = '/'
      · subst h8
        rw [filerStep_char_slash]
        exact resOk_next (appOk_mode_update hPanes _ trivial)
      by_cases h9 : c = 'r'
      · subst h9
        rw [filerStep_char_r]
        cases hget : st.app.currentPane.items.get? st.app.currentPane.selected with
        | none => exact resOk_next ⟨hPanes, modeOk_filer hm⟩
        | some e =>
            apply resOk_next
            refine appOk_mode_update hPanes _ ?_
            unfold ModeOk
            simp only [currentPane_mode_update]
            obtain ⟨hlt, -⟩ := List.get?_eq_some.mp hget
            exact hlt
      by_cases h10 : c = 's'
      · subst h10
        rw [filerStep_char_s]
        exact resOk_next (appOk_mode_update hPanes _ trivial)
      by_cases h11 : c = 'v'
      · subst h11
        rw [filerStep_char_v]
        exact resOk_next ⟨panesOk_setCurrentPane hPanes (paneOk_toggle_mark (paneOk_currentPane hPanes)),
          modeOk_filer (by rw [mode_setCurrentPane]; exact hm)⟩
      by_cases h12 : c = 'y'
      · subst h12
        rw [filerStep_char_y]
        exact resOk_next ⟨panesOk_copy_selection hPanes,
          modeOk_filer ((mode_copy_selection st.app).trans hm)⟩
      by_cases h13 : c = 'p'
      · subst h13
        rw [filerStep_char_p]
        exact resOk_next ⟨panesOk_paste fs hPanes, modeOk_filer ((mode_paste fs st.app).trans hm)⟩
      · rw [filerStep_char_other fs st count c h1 h2 h3 h4 h5 h6 h7 h8 h9 h10 h11 h12 h13]
        exact resOk_next ⟨hPanes, modeOk_filer hm⟩
  | enter =>
      simp only [filerStep]
      split
      · exact resOk_next ⟨panesOk_switchPane hPanes, modeOk_filer hm⟩
      · exact resOk_next (appOk_onEnter fs ⟨hPanes, modeOk_filer hm⟩ hm)
  | esc => exact resOk_next ⟨hPanes, modeOk_filer hm⟩
  | backspace => exact resOk_next ⟨hPanes, modeOk_filer hm⟩
  | up => exact resOk_next ⟨hPanes, modeOk_filer hm⟩
  | down => exact resOk_next ⟨hPanes, modeOk_filer hm⟩

theorem modeOk_search {a : App} {q : String} (h : a.mode = .search q) : ModeOk a := by
  unfold ModeOk
  rw [h]
  exact trivial

theorem modeOk_visual {a : App} {anchor : Nat} (h : a.mode = .visual anchor) :
    ModeOk a ↔ anchor < max 1 a.currentPane.items.length := by
  unfold ModeOk
  rw [h]

theorem modeOk_rename_iff {a : App} {o b : String} (h : a.mode = .rename o b) :
    ModeOk a ↔ a.currentPane.selected < a.currentPane.items.length := by
  unfold ModeOk
  rw [h]

theorem modeDispatch_ok (fs : Fs) (st : LoopState) (k : Key) (count : Nat)
    (hOk : AppOk st.app) : ResOk (modeDispatch fs st k count) := by
  obtain ⟨hPanes, hM⟩ := hOk
  cases hm : st.app.mode with
  | confirmDelete items =>
      simp only [modeDispatch, hm]
      cases k with
      | char c =>
          dsimp only
          by_cases hy : c = 'y'
          · rw [if_pos hy]
            exact resOk_next ⟨panesOk_delete_items fs items hPanes,
              modeOk_filer ((mode_delete_items fs _ items).trans rfl)⟩
          · rw [if_neg hy]
            by_cases hn : c = 'n'
            · rw [if_pos hn]
              exact resOk_next (appOk_mode_update hPanes _ trivial)
            · rw [if_neg hn]
              exact resOk_next ⟨hPanes, hM⟩
      | enter =>
          exact resOk_next ⟨panesOk_delete_items fs items hPanes,
            modeOk_filer ((mode_delete_items fs _ items).trans rfl)⟩
      | esc => exact resOk_next (appOk_mode_update hPanes _ trivial)
      | backspace => exact resOk_next ⟨hPanes, hM⟩
      | up => exact resOk_next ⟨hPanes, hM⟩
      | down => exact resOk_next ⟨hPanes, hM⟩
  | viewer content title offset =>
      simp only [modeDispatch, hm]
      cases k with
      | char c =>
          dsimp only
          by_cases hj : c = 'j'
          · rw [if_pos hj]
            exact resOk_next (appOk_mode_update hPanes _ trivial)
          · rw [if_neg hj]
            by_cases hk : c = 'k'
            · rw [if_pos hk]
              exact resOk_next (appOk_mode_update hPanes _ trivial)
            · rw [if_neg hk]
              exact resOk_next ⟨hPanes, hM⟩
      | enter => exact resOk_next (appOk_mode_update hPanes _ trivial)
      | esc => exact resOk_next ⟨hPanes, hM⟩
      | backspace => exact resOk_next ⟨hPanes, hM⟩
      | up => exact resOk_next ⟨hPanes, hM⟩
      | down => exact resOk_next ⟨hPanes, hM⟩
  | filer =>
      have h := filerStep_ok fs st k count ⟨hPanes, hM⟩ hm
      simpa [modeDispatch, hm] using h
  | visual anchor => simpa [modeDispatch, hm] using @resOk_next st ⟨hPanes, hM⟩
  | search q => simpa [modeDispatch, hm] using @resOk_next st ⟨hPanes, hM⟩
  | rename o b => simpa [modeDispatch, hm] using @resOk_next st ⟨hPanes, hM⟩
  | sortPick s => simpa [modeDispatch, hm] using @resOk_next st ⟨hPanes, hM⟩

theorem commitRename_ok (fs : Fs) (st : LoopState) (buf : String)
    (hPanes : PanesOk st.app) (hm : st.app.mode = .filer)
    (hlt : st.app.currentPane.selected < st.app.currentPane.items.length) :
    ResOk (commitRename fs st buf) := by
  unfold commitRename
  dsimp only
  rw [List.get?_eq_get hlt]
  have hp := paneOk_currentPane hPanes
  cases hr : fs.readDir st.app.currentPane.current_dir with
  | none =>
      simp only [Pane.refresh, hr]
      exact resOk_next ⟨panesOk_setCurrentPane hPanes hp,
        modeOk_filer ((mode_setCurrentPane _ _).trans hm)⟩
  | some es =>
      simp only [Pane.refresh, hr]
      cases hfi : (sortEntriesByName es).findIdx? (fun e => e.name = buf) with
      | none =>
          simp only [hfi]
          refine resOk_next ⟨panesOk_setCurrentPane hPanes ⟨?_, ?_⟩,
            modeOk_filer ((mode_setCurrentPane _ _).trans hm)⟩
          · exact Nat.lt_of_lt_of_le Nat.one_pos (Nat.le_max_left 1 _)
          · intro _ i hi
            simp at hi
      | some pos =>
          simp only [hfi]
          refine resOk_next ⟨panesOk_setCurrentPane hPanes ⟨?_, ?_⟩,
            modeOk_filer ((mode_setCurrentPane _ _).trans hm)⟩
          · have hlen := findIdx?_lt hfi
            exact Nat.lt_of_lt_of_le hlen (Nat.le_max_right 1 _)
          · intro _ i hi
            simp at hi

/-- The search-mode live jump keeps the session invariant. -/
theorem searchJump_ok (st : LoopState) (q' : String) (hPanes : PanesOk st.app) :
    AppOk (match find_match st.app.currentPane.items q' st.app.currentPane.selected with
           | some idx =>
               App.setCurrentPane { st.app with mode := Mode.search q' }
                 { st.app.currentPane with selected := idx }
           | none => { st.app with mode := Mode.search q' }) := by
  cases hf : find_match st.app.currentPane.items q' st.app.currentPane.selected with
  | none => exact appOk_mode_update hPanes _ trivial
  | some idx =>
      have hidx := find_match_lt hf
      refine ⟨panesOk_setCurrentPane (a := { st.app with mode := Mode.search q' })
        ⟨hPanes.1, hPanes.2⟩
        (paneOk_set_selected hidx (paneOk_currentPane (a := st.app) hPanes).2), ?_⟩
      exact modeOk_search ((mode_setCurrentPane _ _).trans rfl)

theorem dispatch_ok (fs : Fs) (st : LoopState) (k : Key) (count : Nat)
    (hOk : AppOk st.app) : ResOk (dispatch fs st k count) := by
  obtain ⟨hPanes, hM⟩ := hOk
  cases hm : st.app.mode with
  | visual anchor =>
      have hanchor : anchor < max 1 st.app.currentPane.items.length :=
        (modeOk_visual hm).mp hM
      simp only [dispatch, hm]
      apply resOk_next
      show AppOk (visualStep st.app anchor k count)
      unfold visualStep
      cases k with
      | char c =>
          dsimp only
          by_cases hj : c = 'j'
          · rw [if_pos hj]
            obtain ⟨hP, hMode, -, hItems, -, -⟩ :=
              iterate_move_facts App.onDown (Or.inr rfl) count st.app hPanes
            have hsel := (paneOk_currentPane hP).1
            refine ⟨panesOk_setCurrentPane hP ⟨hsel, ?_⟩, ?_⟩
            · intro hne i hi
              show i < (App.onDown^[count] st.app).currentPane.items.length
              have hlen : (App.onDown^[count] st.app).currentPane.items.length ≠ 0 :=
                fun h0 => hne (List.eq_nil_of_length_eq_zero h0)
              simp only [SelOk] at hsel
              rw [mem_rangeMarks] at hi
              have hlen2 : (App.onDown^[count] st.app).currentPane.items.length
                  = st.app.currentPane.items.length := by rw [hItems]
              have ha2 := hanchor
              split at hi <;> · simp only at hi; omega
            · rw [show ModeOk _ ↔ _ from
                modeOk_visual (by rw [mode_setCurrentPane, hMode, hm])]
              rw [currentPane_setCurrentPane]
              show anchor < max 1 (App.onDown^[count] st.app).currentPane.items.length
              rw [hItems]
              exact hanchor
          · rw [if_neg hj]
            by_cases hk : c = 'k'
            · rw [if_pos hk]
              obtain ⟨hP, hMode, -, hItems, -, -⟩ :=
                iterate_move_facts App.onUp (Or.inl rfl) count st.app hPanes
              have hsel := (paneOk_currentPane hP).1
              refine ⟨panesOk_setCurrentPane hP ⟨hsel, ?_⟩, ?_⟩
              · intro hne i hi
                show i < (App.onUp^[count] st.app).currentPane.items.length
                have hlen : (App.onUp^[count] st.app).currentPane.items.length ≠ 0 :=
                  fun h0 => hne (List.eq_nil_of_length_eq_zero h0)
                simp only [SelOk] at hsel
                rw [mem_rangeMarks] at hi
                have hlen2 : (App.onUp^[count] st.app).currentPane.items.length
                    = st.app.currentPane.items.length := by rw [hItems]
                have ha2 := hanchor
                split at hi <;> · simp only at hi; omega
              · rw [show ModeOk _ ↔ _ from
                  modeOk_visual (by rw [mode_setCurrentPane, hMode, hm])]
                rw [currentPane_setCurrentPane]
                show anchor < max 1 (App.onUp^[count] st.app).currentPane.items.length
                rw [hItems]
                exact hanchor
            · rw [if_neg hk]
              by_cases hV : c = 'V'
              · rw [if_pos hV]
                exact appOk_mode_update hPanes _ trivial
              · rw [if_neg hV]
                exact ⟨hPanes, hM⟩
      | esc => exact appOk_mode_update hPanes _ trivial
      | enter => exact ⟨hPanes, hM⟩
      | backspace => exact ⟨hPanes, hM⟩
      | up => exact ⟨hPanes, hM⟩
      | down => exact ⟨hPanes, hM⟩
  | search q =>
      simp only [dispatch, hm]
      cases k with
      | enter => exact modeDispatch_ok fs _ _ count (appOk_mode_update hPanes _ trivial)
      | esc => exact modeDispatch_ok fs _ _ count (appOk_mode_update hPanes _ trivial)
      | char c =>
          dsimp only
          apply resOk_next
          exact searchJump_ok st (strPush q c) hPanes
      | backspace =>
          dsimp only
          apply resOk_next
          exact searchJump_ok st (strPop q) hPanes
      | up =>
          dsimp only
          apply resOk_next
          exact searchJump_ok st q hPanes
      | down =>
          dsimp only
          apply resOk_next
          exact searchJump_ok st q hPanes
  | rename o b =>
      have hlt : st.app.currentPane.selected < st.app.currentPane.items.length :=
        (modeOk_rename_iff hm).mp hM
      simp only [dispatch, hm]
      cases k with
      | char c =>
          apply resOk_next
          refine appOk_mode_update hPanes _ ?_
          rw [show ModeOk _ ↔ _ from modeOk_rename_iff rfl]
          rw [currentPane_mode_update]
          exact hlt
      | backspace =>
          apply resOk_next
          refine appOk_mode_update hPanes _ ?_
          rw [show ModeOk _ ↔ _ from modeOk_rename_iff rfl]
          rw [currentPane_mode_update]
          exact hlt
      | enter =>
          refine commitRename_ok fs _ b ⟨hPanes.1, hPanes.2⟩ rfl ?_
          rw [currentPane_mode_update]
          exact hlt
      | esc => exact resOk_next (appOk_mode_update hPanes _ trivial)
      | up => exact resOk_next ⟨hPanes, hM⟩
      | down => exact resOk_next ⟨hPanes, hM⟩
  | sortPick s =>
      simp only [dispatch, hm]
      cases k with
      | char c =>
          dsimp only
          by_cases hj : c = 'j'
          · rw [if_pos hj]
            exact resOk_next (appOk_mode_update hPanes _ trivial)
          · rw [if_neg hj]
            by_cases hk : c = 'k'
            · rw [if_pos hk]
              exact resOk_next (appOk_mode_update hPanes _ trivial)
            · rw [if_neg hk]
              exact resOk_next ⟨hPanes, hM⟩
      | down => exact resOk_next (appOk_mode_update hPanes _ trivial)
      | up => exact resOk_next (appOk_mode_update hPanes _ trivial)
      | enter =>
          apply resOk_next
          refine ⟨panesOk_setCurrentPane (a := { st.app with mode := Mode.filer })
            ⟨hPanes.1, hPanes.2⟩ (paneOk_apply_sort _ _), ?_⟩
          exact modeOk_filer ((mode_setCurrentPane _ _).trans rfl)
      | esc => exact resOk_next (appOk_mode_update hPanes _ trivial)
      | backspace => exact resOk_next ⟨hPanes, hM⟩
  | filer =>
      have h := modeDispatch_ok fs st k count ⟨hPanes, hM⟩
      simpa [dispatch, hm] using h
  | viewer content title offset =>
      have h := modeDispatch_ok fs st k count ⟨hPanes, hM⟩
      simpa [dispatch, hm] using h
  | confirmDelete items =>
      have h := modeDispatch_ok fs st k count ⟨hPanes, hM⟩
      simpa [dispatch, hm] using h

theorem stepAfterCount_ok (fs : Fs) (st : LoopState) (k : Key) (count : Nat)
    (hOk : AppOk st.app) : ResOk (stepAfterCount fs st k count) := by
  obtain ⟨hPanes, hM⟩ := hOk
  cases k with
  | char c =>
      simp only [stepAfterCount]
      by_cases hg : c = 'g'
      · rw [if_pos hg]
        by_cases hlk : st.lastKeyG
        · rw [if_pos hlk]
          apply resOk_next
          cases hm : st.app.mode with
          | filer =>
              simp only [hm]
              exact ⟨panesOk_setCurrentPane hPanes
                  (paneOk_sel_zero (paneOk_currentPane hPanes).2),
                modeOk_filer ((mode_setCurrentPane _ _).trans hm)⟩
          | viewer content title offset =>
              simp only [hm]
              exact appOk_mode_update hPanes _ trivial
          | visual anchor => simpa [hm] using (⟨hPanes, hM⟩ : AppOk st.app)
          | confirmDelete items => simpa [hm] using (⟨hPanes, hM⟩ : AppOk st.app)
          | search q => simpa [hm] using (⟨hPanes, hM⟩ : AppOk st.app)
          | rename o b => simpa [hm] using (⟨hPanes, hM⟩ : AppOk st.app)
          | sortPick s => simpa [hm] using (⟨hPanes, hM⟩ : AppOk st.app)
        · rw [if_neg hlk]
          exact resOk_next ⟨hPanes, hM⟩
      · rw [if_neg hg]
        by_cases hG : c = 'G'
        · rw [if_pos hG]
          apply resOk_next
          cases hm : st.app.mode with
          | filer =>
              simp only [hm]
              refine ⟨panesOk_setCurrentPane hPanes
                  ⟨?_, (paneOk_currentPane hPanes).2⟩,
                modeOk_filer ((mode_setCurrentPane _ _).trans hm)⟩
              show st.app.currentPane.items.length - 1 < max 1 st.app.currentPane.items.length
              omega
          | viewer content title offset =>
              simp only [hm]
              exact appOk_mode_update hPanes _ trivial
          | visual anchor => simpa [hm] using (⟨hPanes, hM⟩ : AppOk st.app)
          | confirmDelete items => simpa [hm] using (⟨hPanes, hM⟩ : AppOk st.app)
          | search q => simpa [hm] using (⟨hPanes, hM⟩ : AppOk st.app)
          | rename o b => simpa [hm] using (⟨hPanes, hM⟩ : AppOk st.app)
          | sortPick s => simpa [hm] using (⟨hPanes, hM⟩ : AppOk st.app)
        · rw [if_neg hG]
          exact dispatch_ok fs _ _ count ⟨hPanes, hM⟩
  | enter => exact dispatch_ok fs _ _ count ⟨hPanes, hM⟩
  | esc => exact dispatch_ok fs _ _ count ⟨hPanes, hM⟩
  | backspace => exact dispatch_ok fs _ _ count ⟨hPanes, hM⟩
  | up => exact dispatch_ok fs _ _ count ⟨hPanes, hM⟩
  | down => exact dispatch_ok fs _ _ count ⟨hPanes, hM⟩

theorem step_ok (fs : Fs) (st : LoopState) (k : Key) (hOk : AppOk st.app) :
    ResOk (step fs st k) := by
  unfold step
  split
  · exact resOk_quit
  · split
    · split
      · exact resOk_next hOk
      · exact stepAfterCount_ok fs _ _ _ hOk
    · exact stepAfterCount_ok fs _ _ _ hOk

/-- `App::new` establishes the session invariant. -/
theorem appOk_new {fs : Fs} {cwd : FsPath} {a : App} (h : App.new fs cwd = some a) :
    AppOk a := by
  unfold App.new Pane.new at h
  cases hr : fs.readDir cwd with
  | none => rw [hr] at h; cases h
  | some es =>
      rw [hr] at h
      simp only [Option.map, Option.some.injEq] at h
      subst h
      refine ⟨⟨⟨?_, ?_⟩, ⟨?_, ?_⟩⟩, trivial⟩
      · exact Nat.lt_of_lt_of_le Nat.one_pos (Nat.le_max_left 1 _)
      · intro _ i hi; simp at hi
      · exact Nat.lt_of_lt_of_le Nat.one_pos (Nat.le_max_left 1 _)
      · intro _ i hi; simp at hi

/-- Every reachable loop state satisfies the session invariant. -/
theorem reach_inv {st : LoopState} (h : Reach st) : Inv st := by
  induction h with
  | new fs cwd a ha => exact appOk_new ha
  | step fs k st st' hr hstep ih => exact (step_ok fs st k ih).2 st' hstep

/-- A reachable state never panics: in particular the rename-commit
indexing is always in bounds. -/
theorem reach_no_panic {st : LoopState} (h : Reach st) (fs : Fs) (k : Key) :
    step fs st k ≠ .panic :=
  (step_ok fs st k (reach_inv h)).1

/-! ### Claim theorems -/

theorem filterMap_path_eq_map {items : List Entry} {l : List Nat}
    (h : ∀ i ∈ l, i < items.length) :
    (l.filterMap fun i => (items.get? i).map Entry.path) =
      l.map fun i => (items.getD i default).path := by
  induction l with
  | nil => rfl
  | cons j js ih =>
      have hj : j < items.length := h j (List.mem_cons_self _ _)
      rw [List.filterMap_cons, List.map_cons, List.get?_eq_get hj]
      rw [ih fun i hi => h i (List.mem_cons_of_mem _ hi)]
      simp only [Option.map]
      congr 1
      rw [List.getD_eq_getElem?_getD, ← List.get?_eq_getElem?, List.get?_eq_get hj]
      rfl

/-- C2: `resolved_targets` — the rule shared by copy (`y`) and delete
(`x`/`X`) — returns exactly the marked entries' paths (in ascending index
order) when `marked` is non-empty, else the single entry at `selected` when
one exists, else the empty list. -/
theorem C2_resolved_targets (p : Pane) (hb : ∀ i ∈ p.marked, i < p.items.length) :
    (p.marked ≠ ∅ → resolvedTargets p =
      (p.marked.sort (· ≤ ·)).map fun i => (p.items.getD i default).path) ∧
    (p.marked = ∅ → ∀ e, p.items.get? p.selected = some e → resolvedTargets p = [e.path]) ∧
    (p.marked = ∅ → p.items.get? p.selected = none → resolvedTargets p = []) := by
  refine ⟨?_, ?_, ?_⟩
  · intro hne
    unfold resolvedTargets
    rw [if_pos hne]
    exact filterMap_path_eq_map fun i hi => hb i ((Finset.mem_sort _).mp hi)
  · intro he e hget
    unfold resolvedTargets
    rw [if_neg (by simp [he]), hget]
  · intro he hget
    unfold resolvedTargets
    rw [if_neg (by simp [he]), hget]

/-- Witness for C2 at a concrete pane (three entries, cursor 1,
marks {0, 2}). -/
theorem C2_resolved_targets_witness :
    (∀ i ∈ paneC2.marked, i < paneC2.items.length) ∧
    (paneC2.marked ≠ ∅ → resolvedTargets paneC2 =
      (paneC2.marked.sort (· ≤ ·)).map fun i => (paneC2.items.getD i default).path) :=
  ⟨by decide, fun hne => (C2_resolved_targets paneC2 (by decide)).1 hne⟩

/-- C3: for every listing and every sequence of `j`/`k` moves with
arbitrary repeat counts the cursor stays in `[0, len-1]` (0 on an empty
listing), and a move at either boundary saturates there. -/
theorem C3_cursor_bounds (p : Pane) (ms : List (Bool × Nat))
    (h : p.selected < p.items.length ∨ (p.items = [] ∧ p.selected = 0)) :
    ((applyMoves p ms).items = p.items ∧
      ((applyMoves p ms).selected < p.items.length ∨
        (p.items = [] ∧ (applyMoves p ms).selected = 0))) ∧
    (∀ q : Pane, q.selected = 0 → (Pane.onUp q).selected = 0) ∧
    (∀ q : Pane, q.selected + 1 = q.items.length → (Pane.onDown q).selected = q.selected) := by
  have single : ∀ (f : Pane → Pane), f = Pane.onUp ∨ f = Pane.onDown →
      ∀ r : Pane,
        (r.items = p.items ∧
          (r.selected < p.items.length ∨ (p.items = [] ∧ r.selected = 0))) →
        ((f r).items = p.items ∧
          ((f r).selected < p.items.length ∨ (p.items = [] ∧ (f r).selected = 0))) := by
    rintro f (rfl | rfl) r ⟨hr1, hr2⟩
    · rw [items_onUp]
      refine ⟨hr1, ?_⟩
      unfold Pane.onUp
      split
      · rcases hr2 with h2 | ⟨h2, h3⟩
        · exact Or.inl (by simp only; omega)
        · exact Or.inr ⟨h2, by simp only; omega⟩
      · exact hr2
    · rw [items_onDown]
      refine ⟨hr1, ?_⟩
      unfold Pane.onDown
      split
      · next hlt =>
          rw [hr1] at hlt
          exact Or.inl (by simp only; omega)
      · exact hr2
  have main : ∀ (ms : List (Bool × Nat)) (q : Pane),
      (q.items = p.items ∧
        (q.selected < p.items.length ∨ (p.items = [] ∧ q.selected = 0))) →
      ((applyMoves q ms).items = p.items ∧
        ((applyMoves q ms).selected < p.items.length ∨
          (p.items = [] ∧ (applyMoves q ms).selected = 0))) := by
    intro ms
    induction ms with
    | nil => intro q hq; exact hq
    | cons m rest ih =>
        intro q hq
        have hstep := iterate_pres (if m.1 then Pane.onDown else Pane.onUp)
          (fun r => r.items = p.items ∧
            (r.selected < p.items.length ∨ (p.items = [] ∧ r.selected = 0)))
          (by
            rcases m with ⟨b, n⟩
            cases b
            · simpa using single Pane.onUp (Or.inl rfl)
            · simpa using single Pane.onDown (Or.inr rfl))
          m.2 q hq
        simpa only [applyMoves, List.foldl_cons] using ih _ hstep
  refine ⟨main ms p ⟨rfl, h⟩, ?_, ?_⟩
  · intro q hq
    unfold Pane.onUp
    split
    · next hpos => omega
    · exact hq
  · intro q hq
    unfold Pane.onDown
    split
    · next hlt => omega
    · rfl

/-- Witness for C3: three entries, five `j` then two `k`. -/
theorem C3_cursor_bounds_witness :
    (paneThree.selected < paneThree.items.length ∨
      (paneThree.items = [] ∧ paneThree.selected = 0)) ∧
    ((applyMoves paneThree [(true, 5), (false, 2)]).items = paneThree.items ∧
      ((applyMoves paneThree [(true, 5), (false, 2)]).selected < paneThree.items.length ∨
        (paneThree.items = [] ∧ (applyMoves paneThree [(true, 5), (false, 2)]).selected = 0))) :=
  ⟨Or.inl (by decide),
    (C3_cursor_bounds paneThree [(true, 5), (false, 2)] (Or.inl (by decide))).1⟩

/-- C1 counterexample: pressing `v` on an empty listing is reachable and
puts index 0 into `marked`, which is not a valid index of the (empty)
listing — the claimed subset invariant fails. -/
theorem C1_counterexample :
    Reach c1State ∧ c1State.app.left.items = [] ∧ c1State.app.left.marked = {0} ∧
      ¬ (∀ i ∈ c1State.app.left.marked, i < c1State.app.left.items.length) :=
  ⟨Reach.step fsEmpty (Key.char 'v') stEmpty c1State
      (Reach.new fsEmpty [] appEmpty (by decide)) (by decide),
    by decide, by decide, by decide⟩

/-- C1 amended: in every reachable session state, each pane's `marked` set
contains only valid indices of its current listing whenever that listing is
non-empty; on an empty listing `v`/`V` can leave index 0 marked (harmless:
every consumer reads entries through the bounds-checked `items.get`). -/
theorem C1_marked_in_bounds {st : LoopState} (h : Reach st) :
    (st.app.left.items ≠ [] →
      ∀ i ∈ st.app.left.marked, i < st.app.left.items.length) ∧
    (st.app.right.items ≠ [] →
      ∀ i ∈ st.app.right.marked, i < st.app.right.items.length) := by
  have hInv := reach_inv h
  exact ⟨hInv.1.1.2, hInv.1.2.2⟩

/-- Witness for the amended C1 at a reachable state (after `v` then `j` on
the three-entry listing). -/
theorem C1_marked_in_bounds_witness :
    ((runKeys fsThree stThree [Key.char 'v', Key.char 'j']).app.left.items ≠ [] →
      ∀ i ∈ (runKeys fsThree stThree [Key.char 'v', Key.char 'j']).app.left.marked,
        i < (runKeys fsThree stThree [Key.char 'v', Key.char 'j']).app.left.items.length) ∧
    ((runKeys fsThree stThree [Key.char 'v', Key.char 'j']).app.right.items ≠ [] →
      ∀ i ∈ (runKeys fsThree stThree [Key.char 'v', Key.char 'j']).app.right.marked,
        i < (runKeys fsThree stThree [Key.char 'v', Key.char 'j']).app.right.items.length) :=
  C1_marked_in_bounds
    (Reach.step fsThree (Key.char 'j') (stepState fsThree stThree (Key.char 'v'))
      (runKeys fsThree stThree [Key.char 'v', Key.char 'j'])
      (Reach.step fsThree (Key.char 'v') stThree (stepState fsThree stThree (Key.char 'v'))
        (Reach.new fsThree [] appThree (by decide)) (by decide))
      (by decide))

/-- C10: in every reachable state, Renaming mode implies the cursor points
at an existing entry, so the unguarded `pane.items[pane.selected]` of the
rename commit is in bounds and no step can hit the modelled panic. -/
theorem C10_rename_commit_in_bounds {st : LoopState} (h : Reach st) :
    (∀ o b, st.app.mode = Mode.rename o b →
      st.app.currentPane.selected < st.app.currentPane.items.length) ∧
    ∀ (fs : Fs) (k : Key), step fs st k ≠ StepResult.panic := by
  have hInv := reach_inv h
  refine ⟨?_, fun fs k => (step_ok fs st k hInv).1⟩
  intro o b hm
  exact (modeOk_rename_iff hm).mp hInv.2

/-- Witness for C10 at a reachable Renaming-mode state (after `r` on the
three-entry listing): the commit key (Enter) does not panic there. -/
theorem C10_rename_commit_in_bounds_witness :
    (∀ o b, (runKeys fsThree stThree [Key.char 'r']).app.mode = Mode.rename o b →
      (runKeys fsThree stThree [Key.char 'r']).app.currentPane.selected <
        (runKeys fsThree stThree [Key.char 'r']).app.currentPane.items.length) ∧
    ∀ (fs : Fs) (k : Key), step fs (runKeys fsThree stThree [Key.char 'r']) k ≠
      StepResult.panic :=
  C10_rename_commit_in_bounds
    (Reach.step fsThree (Key.char 'r') stThree (runKeys fsThree stThree [Key.char 'r'])
      (Reach.new fsThree [] appThree (by decide)) (by decide))

theorem next_inj {a b : LoopState} (h : StepResult.next a = StepResult.next b) : a = b := by
  cases h
  rfl

theorem clipboard_onLeft (fs : Fs) (a : App) :
    (App.onLeft fs a).clipboard = a.clipboard := by
  simp only [App.onLeft]
  cases h : parentPath a.currentPane.current_dir <;> simp [h, clipboard_setCurrentPane]

theorem clipboard_onEnter (fs : Fs) (a : App) :
    (App.onEnter fs a).clipboard = a.clipboard := by
  simp only [App.onEnter]
  cases hget : a.currentPane.items.get? a.currentPane.selected with
  | none => rfl
  | some e =>
      simp only
      split
      · rw [clipboard_setCurrentPane]
      · cases fs.readToString e.path <;> rfl

theorem iterate_move_clipboard (f : App → App) (hf : f = App.onUp ∨ f = App.onDown)
    (n : Nat) (a : App) : (f^[n] a).clipboard = a.clipboard := by
  have key : ∀ b : App, b.clipboard = a.clipboard → (f b).clipboard = a.clipboard := by
    intro b hb
    rcases hf with rfl | rfl
    · rw [clipboard_onUp, hb]
    · rw [clipboard_onDown, hb]
  exact iterate_pres f (fun b => b.clipboard = a.clipboard) key n a rfl

theorem clipboard_visualStep (a : App) (anchor : Nat) (k : Key) (count : Nat) :
    (visualStep a anchor k count).clipboard = a.clipboard := by
  unfold visualStep
  cases k with
  | char c =>
      dsimp only
      by_cases hj : c = 'j'
      · rw [if_pos hj, clipboard_setCurrentPane]
        exact iterate_move_clipboard App.onDown (Or.inr rfl) count a
      · rw [if_neg hj]
        by_cases hk : c = 'k'
        · rw [if_pos hk, clipboard_setCurrentPane]
          exact iterate_move_clipboard App.onUp (Or.inl rfl) count a
        · rw [if_neg hk]
          by_cases hV : c = 'V'
          · rw [if_pos hV]
          · rw [if_neg hV]
  | esc => rfl
  | enter => rfl
  | backspace => rfl
  | up => rfl
  | down => rfl

theorem commitRename_frame (fs : Fs) (st : LoopState) (buf : String) :
    ∀ st', commitRename fs st buf = .next st' →
      st'.pfx = st.pfx ∧ st'.lastKeyG = st.lastKeyG ∧
        st'.app.clipboard = st.app.clipboard := by
  intro st' h
  unfold commitRename at h
  dsimp only at h
  cases hget : st.app.currentPane.items.get? st.app.currentPane.selected with
  | none => rw [hget] at h; cases h
  | some e =>
      rw [hget] at h
      obtain rfl := next_inj h
      exact ⟨rfl, rfl, clipboard_setCurrentPane _ _⟩

theorem filerStep_frame (fs : Fs) (st : LoopState) (k : Key) (count : Nat) :
    ∀ st', filerStep fs st k count = .next st' →
      st'.pfx = st.pfx ∧ st'.lastKeyG = st.lastKeyG ∧
        (st'.app.clipboard = st.app.clipboard ∨ k = Key.char 'y') := by
  intro st' h
  cases k with
  | char c =>
      by_cases h1 : c = 'j'
      · subst h1; rw [filerStep_char_j] at h
        obtain rfl := next_inj h
        exact ⟨rfl, rfl, Or.inl (iterate_move_clipboard App.onDown (Or.inr rfl) count st.app)⟩
      by_cases h2 : c = 'k'
      · subst h2; rw [filerStep_char_k] at h
        obtain rfl := next_inj h
        exact ⟨rfl, rfl, Or.inl (iterate_move_clipboard App.onUp (Or.inl rfl) count st.app)⟩
      by_cases h3 : c = 'x'
      · subst h3; rw [filerStep_char_x] at h
        obtain rfl := next_inj h
        exact ⟨rfl, rfl, Or.inl rfl⟩
      by_cases h4 : c = 'X'
      · subst h4; rw [filerStep_char_X] at h
        obtain rfl := next_inj h
        exact ⟨rfl, rfl, Or.inl (clipboard_setCurrentPane _ _)⟩
      by_cases h5 : c = 'h'
      · subst h5; rw [filerStep_char_h] at h
        cases ha : st.app.active <;> rw [ha] at h <;> obtain rfl := next_inj h
        · exact ⟨rfl, rfl, Or.inl (clipboard_onLeft fs st.app)⟩
        · exact ⟨rfl, rfl, Or.inl rfl⟩
      by_cases h6 : c = 'l'
      · subst h6; rw [filerStep_char_l] at h
        cases ha : st.app.active <;> rw [ha] at h <;> obtain rfl := next_inj h
        · exact ⟨rfl, rfl, Or.inl rfl⟩
        · exact ⟨rfl, rfl, Or.inl (clipboard_onLeft fs st.app)⟩
      by_cases h7 : c = 'V'
      · subst h7; rw [filerStep_char_V] at h
        obtain rfl := next_inj h
        exact ⟨rfl, rfl, Or.inl (clipboard_setCurrentPane _ _)⟩
      by_cases h8 : c = '/'
      · subst h8; rw [filerStep_char_slash] at h
        obtain rfl := next_inj h
        exact ⟨rfl, rfl, Or.inl rfl⟩
      by_cases h9 : c = 'r'
      · subst h9; rw [filerStep_char_r] at h
        cases hget : st.app.currentPane.items.get? st.app.currentPane.selected <;>
          rw [hget] at h <;> obtain rfl := next_inj h
        · exact ⟨rfl, rfl, Or.inl rfl⟩
        · exact ⟨rfl, rfl, Or.inl rfl⟩
      by_cases h10 : c = 's'
      · subst h10; rw [filerStep_char_s] at h
        obtain rfl := next_inj h
        exact ⟨rfl, rfl, Or.inl rfl⟩
      by_cases h11 : c = 'v'
      · subst h11; rw [filerStep_char_v] at h
        obtain rfl := next_inj h
        exact ⟨rfl, rfl, Or.inl (clipboard_setCurrentPane _ _)⟩
      by_cases h12 : c = 'y'
      · subst h12
        exact ⟨by rw [← next_inj h], by rw [← next_inj h], Or.inr rfl⟩
      by_cases h13 : c = 'p'
      · subst h13; rw [filerStep_char_p] at h
        obtain rfl := next_inj h
        exact ⟨rfl, rfl, Or.inl (clipboard_setCurrentPane _ _)⟩
      · rw [filerStep_char_other fs st count c h1 h2 h3 h4 h5 h6 h7 h8 h9 h10 h11 h12 h13] at h
        obtain rfl := next_inj h
        exact ⟨rfl, rfl, Or.inl rfl⟩
  | enter =>
      simp only [filerStep] at h
      split at h <;> obtain rfl := next_inj h
      · exact ⟨rfl, rfl, Or.inl rfl⟩
      · exact ⟨rfl, rfl, Or.inl (clipboard_onEnter fs st.app)⟩
  | esc => obtain rfl := next_inj h; exact ⟨rfl, rfl, Or.inl rfl⟩
  | backspace => obtain rfl := next_inj h; exact ⟨rfl, rfl, Or.inl rfl⟩
  | up => obtain rfl := next_inj h; exact ⟨rfl, rfl, Or.inl rfl⟩
  | down => obtain rfl := next_inj h; exact ⟨rfl, rfl, Or.inl rfl⟩

theorem modeDispatch_frame (fs : Fs) (st : LoopState) (k : Key) (count : Nat) :
    ∀ st', modeDispatch fs st k count = .next st' →
      st'.pfx = st.pfx ∧ st'.lastKeyG = st.lastKeyG ∧
        (st'.app.clipboard = st.app.clipboard ∨ k = Key.char 'y') := by
  intro st' h
  cases hm : st.app.mode with
  | confirmDelete items =>
      simp only [modeDispatch, hm] at h
      cases k with
      | char c =>
          dsimp only at h
          by_cases hy : c = 'y'
          · rw [if_pos hy] at h
            obtain rfl := next_inj h
            exact ⟨rfl, rfl, Or.inr (by rw [hy])⟩
          · rw [if_neg hy] at h
            by_cases hn : c = 'n'
            · rw [if_pos hn] at h
              obtain rfl := next_inj h
              exact ⟨rfl, rfl, Or.inl rfl⟩
            · rw [if_neg hn] at h
              obtain rfl := next_inj h
              exact ⟨rfl, rfl, Or.inl rfl⟩
      | enter =>
          obtain rfl := next_inj h
          exact ⟨rfl, rfl, Or.inl (clipboard_setCurrentPane _ _)⟩
      | esc => obtain rfl := next_inj h; exact ⟨rfl, rfl, Or.inl rfl⟩
      | backspace => obtain rfl := next_inj h; exact ⟨rfl, rfl, Or.inl rfl⟩
      | up => obtain rfl := next_inj h; exact ⟨rfl, rfl, Or.inl rfl⟩
      | down => obtain rfl := next_inj h; exact ⟨rfl, rfl, Or.inl rfl⟩
  | viewer content title offset =>
      simp only [modeDispatch, hm] at h
      cases k with
      | char c =>
          dsimp only at h
          by_cases hj : c = 'j'
          · rw [if_pos hj] at h
            obtain rfl := next_inj h
            exact ⟨rfl, rfl, Or.inl rfl⟩
          · rw [if_neg hj] at h
            by_cases hk : c = 'k'
            · rw [if_pos hk] at h
              obtain rfl := next_inj h
              exact ⟨rfl, rfl, Or.inl rfl⟩
            · rw [if_neg hk] at h
              obtain rfl := next_inj h
              exact ⟨rfl, rfl, Or.inl rfl⟩
      | enter => obtain rfl := next_inj h; exact ⟨rfl, rfl, Or.inl rfl⟩
      | esc => obtain rfl := next_inj h; exact ⟨rfl, rfl, Or.inl rfl⟩
      | backspace => obtain rfl := next_inj h; exact ⟨rfl, rfl, Or.inl rfl⟩
      | up => obtain rfl := next_inj h; exact ⟨rfl, rfl, Or.inl rfl⟩
      | down => obtain rfl := next_inj h; exact ⟨rfl, rfl, Or.inl rfl⟩
  | filer =>
      simp only [modeDispatch, hm] at h
      exact filerStep_frame fs st k count st' h
  | visual anchor =>
      simp only [modeDispatch, hm] at h
      obtain rfl := next_inj h
      exact ⟨rfl, rfl, Or.inl rfl⟩
  | search q =>
      simp only [modeDispatch, hm] at h
      obtain rfl := next_inj h
      exact ⟨rfl, rfl, Or.inl rfl⟩
  | rename o b =>
      simp only [modeDispatch, hm] at h
      obtain rfl := next_inj h
      exact ⟨rfl, rfl, Or.inl rfl⟩
  | sortPick s =>
      simp only [modeDispatch, hm] at h
      obtain rfl := next_inj h
      exact ⟨rfl, rfl, Or.inl rfl⟩

theorem dispatch_frame (fs : Fs) (st : LoopState) (k : Key) (count : Nat) :
    ∀ st', dispatch fs st k count = .next st' →
      st'.pfx = st.pfx ∧ st'.lastKeyG = st.lastKeyG ∧
        (st'.app.clipboard = st.app.clipboard ∨ k = Key.char 'y') := by
  intro st' h
  cases hm : st.app.mode with
  | visual anchor =>
      simp only [dispatch, hm] at h
      obtain rfl := next_inj h
      exact ⟨rfl, rfl, Or.inl (clipboard_visualStep st.app anchor k count)⟩
  | search q =>
      simp only [dispatch, hm] at h
      cases k with
      | enter =>
          dsimp only at h
          exact modeDispatch_frame fs
            ⟨{ st.app with mode := Mode.filer }, st.pfx, st.lastKeyG⟩ Key.enter count st' h
      | esc =>
          dsimp only at h
          exact modeDispatch_frame fs
            ⟨{ st.app with mode := Mode.filer }, st.pfx, st.lastKeyG⟩ Key.esc count st' h
      | char c =>
          dsimp only at h
          simp only [currentPane_mode_update] at h
          cases hf : find_match st.app.currentPane.items (strPush q c)
              st.app.currentPane.selected <;>
            rw [hf] at h <;> obtain rfl := next_inj h
          · exact ⟨rfl, rfl, Or.inl rfl⟩
          · exact ⟨rfl, rfl, Or.inl (clipboard_setCurrentPane _ _)⟩
      | backspace =>
          dsimp only at h
          simp only [currentPane_mode_update] at h
          cases hf : find_match st.app.currentPane.items (strPop q)
              st.app.currentPane.selected <;>
            rw [hf] at h <;> obtain rfl := next_inj h
          · exact ⟨rfl, rfl, Or.inl rfl⟩
          · exact ⟨rfl, rfl, Or.inl (clipboard_setCurrentPane _ _)⟩
      | up =>
          dsimp only at h
          simp only [currentPane_mode_update] at h
          cases hf : find_match st.app.currentPane.items q st.app.currentPane.selected <;>
            rw [hf] at h <;> obtain rfl := next_inj h
          · exact ⟨rfl, rfl, Or.inl rfl⟩
          · exact ⟨rfl, rfl, Or.inl (clipboard_setCurrentPane _ _)⟩
      | down =>
          dsimp only at h
          simp only [currentPane_mode_update] at h
          cases hf : find_match st.app.currentPane.items q st.app.currentPane.selected <;>
            rw [hf] at h <;> obtain rfl := next_inj h
          · exact ⟨rfl, rfl, Or.inl rfl⟩
          · exact ⟨rfl, rfl, Or.inl (clipboard_setCurrentPane _ _)⟩
  | rename o b =>
      simp only [dispatch, hm] at h
      cases k with
      | char c => obtain rfl := next_inj h; exact ⟨rfl, rfl, Or.inl rfl⟩
      | backspace => obtain rfl := next_inj h; exact ⟨rfl, rfl, Or.inl rfl⟩
      | enter => exact commitRename_frame fs _ b st' h |>.imp id (·.imp id Or.inl)
      | esc => obtain rfl := next_inj h; exact ⟨rfl, rfl, Or.inl rfl⟩
      | up => obtain rfl := next_inj h; exact ⟨rfl, rfl, Or.inl rfl⟩
      | down => obtain rfl := next_inj h; exact ⟨rfl, rfl, Or.inl rfl⟩
  | sortPick s =>
      simp only [dispatch, hm] at h
      cases k with
      | char c =>
          dsimp only at h
          by_cases hj : c = 'j'
          · rw [if_pos hj] at h
            obtain rfl := next_inj h
            exact ⟨rfl, rfl, Or.inl rfl⟩
          · rw [if_neg hj] at h
            by_cases hk : c = 'k'
            · rw [if_pos hk] at h
              obtain rfl := next_inj h
              exact ⟨rfl, rfl, Or.inl rfl⟩
            · rw [if_neg hk] at h
              obtain rfl := next_inj h
              exact ⟨rfl, rfl, Or.inl rfl⟩
      | down => obtain rfl := next_inj h; exact ⟨rfl, rfl, Or.inl rfl⟩
      | up => obtain rfl := next_inj h; exact ⟨rfl, rfl, Or.inl rfl⟩
      | enter =>
          obtain rfl := next_inj h
          exact ⟨rfl, rfl, Or.inl (clipboard_setCurrentPane _ _)⟩
      | esc => obtain rfl := next_inj h; exact ⟨rfl, rfl, Or.inl rfl⟩
      | backspace => obtain rfl := next_inj h; exact ⟨rfl, rfl, Or.inl rfl⟩
  | filer =>
      simp only [dispatch, hm] at h
      exact modeDispatch_frame fs st k count st' h
  | viewer content title offset =>
      simp only [dispatch, hm] at h
      exact modeDispatch_frame fs st k count st' h
  | confirmDelete items =>
      simp only [dispatch, hm] at h
      exact modeDispatch_frame fs st k count st' h

theorem stepAfterCount_frame (fs : Fs) (st : LoopState) (k : Key) (count : Nat) :
    ∀ st', stepAfterCount fs st k count = .next st' →
      st'.pfx = st.pfx ∧ (st'.app.clipboard = st.app.clipboard ∨ k = Key.char 'y') ∧
        ((∀ c, k ≠ Key.char c) → st'.lastKeyG = st.lastKeyG) := by
  intro st' h
  cases k with
  | char c =>
      simp only [stepAfterCount] at h
      by_cases hg : c = 'g'
      · rw [if_pos hg] at h
        by_cases hlk : st.lastKeyG
        · rw [if_pos hlk] at h
          obtain rfl := next_inj h
          refine ⟨rfl, Or.inl ?_, fun hc => absurd rfl (hc c)⟩
          cases hm : st.app.mode with
          | filer => simp only [hm]; exact clipboard_setCurrentPane _ _
          | viewer content title offset => simp only [hm]
          | visual anchor => simp only [hm]
          | confirmDelete items => simp only [hm]
          | search q => simp only [hm]
          | rename o b => simp only [hm]
          | sortPick s => simp only [hm]
        · rw [if_neg hlk] at h
          obtain rfl := next_inj h
          exact ⟨rfl, Or.inl rfl, fun hc => absurd rfl (hc c)⟩
      · rw [if_neg hg] at h
        by_cases hG : c = 'G'
        · rw [if_pos hG] at h
          obtain rfl := next_inj h
          refine ⟨rfl, Or.inl ?_, fun hc => absurd rfl (hc c)⟩
          cases hm : st.app.mode with
          | filer => simp only [hm]; exact clipboard_setCurrentPane _ _
          | viewer content title offset => simp only [hm]
          | visual anchor => simp only [hm]
          | confirmDelete items => simp only [hm]
          | search q => simp only [hm]
          | rename o b => simp only [hm]
          | sortPick s => simp only [hm]
        · rw [if_neg hG] at h
          obtain ⟨h1, -, h3⟩ := dispatch_frame fs _ _ count st' h
          exact ⟨h1, h3, fun hc => absurd rfl (hc c)⟩
  | enter =>
      obtain ⟨h1, h2, h3⟩ := dispatch_frame fs _ _ count st' h
      exact ⟨h1, h3, fun _ => h2⟩
  | esc =>
      obtain ⟨h1, h2, h3⟩ := dispatch_frame fs _ _ count st' h
      exact ⟨h1, h3, fun _ => h2⟩
  | backspace =>
      obtain ⟨h1, h2, h3⟩ := dispatch_frame fs _ _ count st' h
      exact ⟨h1, h3, fun _ => h2⟩
  | up =>
      obtain ⟨h1, h2, h3⟩ := dispatch_frame fs _ _ count st' h
      exact ⟨h1, h3, fun _ => h2⟩
  | down =>
      obtain ⟨h1, h2, h3⟩ := dispatch_frame fs _ _ count st' h
      exact ⟨h1, h3, fun _ => h2⟩

theorem step_frame (fs : Fs) (st : LoopState) (k : Key) :
    ∀ st', step fs st k = .next st' →
      (st'.app.clipboard = st.app.clipboard ∨ k = Key.char 'y') ∧
        ((∀ c, k ≠ Key.char c) → st'.lastKeyG = st.lastKeyG) := by
  intro st' h
  unfold step at h
  split at h
  · cases h
  · split at h
    · split at h
      · obtain rfl := next_inj h
        exact ⟨Or.inl rfl, fun _ => rfl⟩
      · obtain ⟨-, h2, h3⟩ := stepAfterCount_frame fs _ _ _ st' h
        exact ⟨h2, h3⟩
    · obtain ⟨-, h2, h3⟩ := stepAfterCount_frame fs _ _ _ st' h
      exact ⟨h2, h3⟩

theorem and_isDigit_false {b : Bool} {c : Char} (h : c.isDigit = false) :
    ¬ ((b && c.isDigit) = true) := by
  rw [h, Bool.and_false]
  exact Bool.false_ne_true

theorem step_char_q (fs : Fs) (st : LoopState) : step fs st (Key.char 'q') = .quit := rfl

theorem step_char_nondigit (fs : Fs) (st : LoopState) (c : Char)
    (hq : c ≠ 'q') (hd : c.isDigit = false) :
    step fs st (Key.char c) =
      stepAfterCount fs { st with pfx := 0 } (Key.char c)
        (if st.pfx > 0 then st.pfx else 1) := by
  unfold step
  rw [if_neg (by simp [hq])]
  dsimp only
  rw [if_neg (and_isDigit_false hd)]

theorem step_char_digit (fs : Fs) (st : LoopState) (c : Char)
    (hq : c ≠ 'q') (hd : c.isDigit = true) (hm : st.app.mode.isFilerOrViewer = true) :
    step fs st (Key.char c) =
      .next { st with pfx := satMulAdd10 st.pfx (c.toNat - '0'.toNat) } := by
  unfold step
  rw [if_neg (by simp [hq])]
  dsimp only
  rw [if_pos (by rw [hm, hd]; rfl)]

theorem step_char_digit_other_mode (fs : Fs) (st : LoopState) (c : Char)
    (hq : c ≠ 'q') (hm : st.app.mode.isFilerOrViewer = false) :
    step fs st (Key.char c) =
      stepAfterCount fs { st with pfx := 0 } (Key.char c)
        (if st.pfx > 0 then st.pfx else 1) := by
  unfold step
  rw [if_neg (by simp [hq])]
  dsimp only
  rw [if_neg (by rw [hm]; simp)]

theorem step_nonchar (fs : Fs) (st : LoopState) (k : Key)
    (hk : k = Key.enter ∨ k = Key.esc ∨ k = Key.backspace ∨ k = Key.up ∨ k = Key.down) :
    step fs st k =
      stepAfterCount fs { st with pfx := 0 } k (if st.pfx > 0 then st.pfx else 1) := by
  rcases hk with rfl | rfl | rfl | rfl | rfl <;> rfl

theorem stepAfterCount_char_g (fs : Fs) (st : LoopState) (count : Nat) :
    stepAfterCount fs st (Key.char 'g') count =
      if st.lastKeyG then
        .next { st with
          app :=
            match st.app.mode with
            | .filer => st.app.setCurrentPane { st.app.currentPane with selected := 0 }
            | .viewer content title _ => { st.app with mode := .viewer content title 0 }
            | _ => st.app,
          lastKeyG := false }
      else .next { st with lastKeyG := true } := rfl

theorem stepAfterCount_char_G (fs : Fs) (st : LoopState) (count : Nat) :
    stepAfterCount fs st (Key.char 'G') count =
      .next { st with
        app :=
          match st.app.mode with
          | .filer =>
              st.app.setCurrentPane
                { st.app.currentPane with selected := st.app.currentPane.items.length - 1 }
          | .viewer content title _ =>
              { st.app with mode := .viewer content title ((linesCount content - 1) % 2 ^ 16) }
          | _ => st.app,
        lastKeyG := false } := rfl

theorem stepAfterCount_char_other (fs : Fs) (st : LoopState) (count : Nat) (c : Char)
    (hg : c ≠ 'g') (hG : c ≠ 'G') :
    stepAfterCount fs st (Key.char c) count =
      dispatch fs { st with lastKeyG := false } (Key.char c) count := by
  simp only [stepAfterCount]
  rw [if_neg hg, if_neg hG]

theorem stepAfterCount_nonchar (fs : Fs) (st : LoopState) (k : Key) (count : Nat)
    (hk : k = Key.enter ∨ k = Key.esc ∨ k = Key.backspace ∨ k = Key.up ∨ k = Key.down) :
    stepAfterCount fs st k count = dispatch fs st k count := by
  rcases hk with rfl | rfl | rfl | rfl | rfl <;> rfl

/-- C9: paste (`p`) never writes the clipboard: after any paste the
clipboard equals its value before the paste (so pasting is repeatable), and
among all keys only the copy action `y` can change the clipboard. -/
theorem C9_paste_keeps_clipboard (fs : Fs) (st : LoopState) (k : Key) :
    (∀ a : App, (paste fs a).clipboard = a.clipboard) ∧
    ((stepState fs st (Key.char 'p')).app.clipboard = st.app.clipboard) ∧
    (∀ st', step fs st k = .next st' →
      st'.app.clipboard ≠ st.app.clipboard → k = Key.char 'y') := by
  refine ⟨fun a => clipboard_setCurrentPane _ _, ?_, ?_⟩
  · cases hs : step fs st (Key.char 'p') with
    | next st' =>
        unfold stepState
        rw [hs]
        rcases (step_frame fs st (Key.char 'p') st' hs).1 with hc | hy
        · exact hc
        · exact absurd hy (by decide)
    | quit => unfold stepState; rw [hs]
    | panic => unfold stepState; rw [hs]
  · intro st' hstep hne
    rcases (step_frame fs st k st' hstep).1 with hc | hy
    · exact absurd hc hne
    · exact hy

/-- Witness for C9 at the three-entry session: pasting keeps the (empty)
clipboard, and a non-`y` key that leaves a successor state cannot have
changed the clipboard. -/
theorem C9_paste_keeps_clipboard_witness :
    (paste fsThree appThree).clipboard = appThree.clipboard ∧
    ((stepState fsThree stThree (Key.char 'p')).app.clipboard = stThree.app.clipboard) ∧
    ((stepState fsThree stThree (Key.char 'v')).app.clipboard ≠ stThree.app.clipboard →
      Key.char 'v' = Key.char 'y') :=
  ⟨(C9_paste_keeps_clipboard fsThree stThree (Key.char 'v')).1 appThree,
    (C9_paste_keeps_clipboard fsThree stThree (Key.char 'v')).2.1,
    fun hne => (C9_paste_keeps_clipboard fsThree stThree (Key.char 'v')).2.2
      (stepState fsThree stThree (Key.char 'v')) (by decide) hne⟩

/-- A `g` press with the flag clear arms the flag and leaves the session
untouched. -/
theorem step_g_arm (fs : Fs) (s : LoopState) (hlk : s.lastKeyG = false) :
    step fs s (Key.char 'g') = .next { s with pfx := 0, lastKeyG := true } := by
  rw [step_char_nondigit fs s 'g' (by decide) rfl, stepAfterCount_char_g]
  rw [if_neg (by simp [hlk])]

/-- `x` in Filer mode captures the resolved targets and enters
ConfirmDelete. -/
theorem step_x_filer (fs : Fs) (s : LoopState) (hm : s.app.mode = Mode.filer) :
    step fs s (Key.char 'x') =
      .next { s with
        app := { s.app with mode := .confirmDelete (resolvedTargets s.app.currentPane) },
        pfx := 0, lastKeyG := false } := by
  rw [step_char_nondigit fs s 'x' (by decide) rfl,
    stepAfterCount_char_other _ _ _ 'x' (by decide) (by decide)]
  have h1 : dispatch fs { s with pfx := 0, lastKeyG := false } (Key.char 'x')
      (if s.pfx > 0 then s.pfx else 1) =
      filerStep fs { s with pfx := 0, lastKeyG := false } (Key.char 'x')
        (if s.pfx > 0 then s.pfx else 1) := by
    simp [dispatch, modeDispatch, hm]
  rw [h1, filerStep_char_x]

/-- C4 counterexample: from the three-entry listing, `G` moves the cursor
to index 2; but `G`, `g`, `Esc`, `g` ends at index 0 — the `gg` jump fired
although a different key (the named key `Esc`) intervened between the two
`g` presses, contradicting the claim that any intervening key clears the
pending flag. -/
theorem C4_counterexample :
    (runKeys fsThree stThree [Key.char 'G']).app.left.selected = 2 ∧
    (runKeys fsThree stThree
        [Key.char 'G', Key.char 'g', Key.esc, Key.char 'g']).app.left.selected = 0 :=
  ⟨by decide, by decide⟩

/-- C4 amended: the first `g` arms the pending flag and the second `g`
consumes it, but only *character* keys clear it: a character key other than
`g` (and other than a count digit in Filer/Viewer mode) resets the flag,
while named keys such as Enter or Esc, and count digits, leave it
unchanged.  `g`,`x`,`g` therefore does not jump to top, while
`g`,`Esc`,`g` does. -/
theorem C4_pending_g (fs : Fs) (st : LoopState) (c : Char)
    (hq : c ≠ 'q') (hg : c ≠ 'g') (hd : c.isDigit = false) :
    ((stepState fs st (Key.char 'g')).lastKeyG = !st.lastKeyG) ∧
    (∀ st', step fs st (Key.char c) = .next st' → st'.lastKeyG = false) ∧
    (∀ st', step fs st Key.esc = .next st' → st'.lastKeyG = st.lastKeyG) ∧
    (∀ st', step fs st Key.enter = .next st' → st'.lastKeyG = st.lastKeyG) ∧
    (∀ d : Char, d.isDigit = true → st.app.mode.isFilerOrViewer = true →
      (stepState fs st (Key.char d)).lastKeyG = st.lastKeyG) ∧
    (st.lastKeyG = true → st.app.mode = Mode.filer →
      (stepState fs st (Key.char 'g')).app.currentPane.selected = 0) ∧
    (st.lastKeyG = false → st.app.mode = Mode.filer →
      (runKeys fs st [Key.char 'g', Key.char 'x', Key.char 'g']).app.currentPane.selected =
        st.app.currentPane.selected) := by
  have hgd : Char.isDigit 'g' = false := rfl
  have hstepg := (step_char_nondigit fs st 'g' (by decide) hgd).trans
    (stepAfterCount_char_g fs { st with pfx := 0 } (if st.pfx > 0 then st.pfx else 1))
  refine ⟨?_, ?_, ?_, ?_, ?_, ?_, ?_⟩
  · by_cases hlk : st.lastKeyG
    · rw [if_pos hlk] at hstepg
      unfold stepState
      rw [hstepg, hlk]
      rfl
    · have hlk' : st.lastKeyG = false := by simpa using hlk
      rw [if_neg hlk] at hstepg
      unfold stepState
      rw [hstepg, hlk']
      rfl
  · intro st' hs
    by_cases hG : c = 'G'
    · subst hG
      rw [step_char_nondigit fs st 'G' (by decide) rfl, stepAfterCount_char_G] at hs
      obtain rfl := next_inj hs
      rfl
    · rw [step_char_nondigit fs st c hq hd, stepAfterCount_char_other _ _ _ c hg hG] at hs
      exact (dispatch_frame fs _ _ _ st' hs).2.1
  · intro st' hs
    rw [step_nonchar fs st Key.esc (by simp),
      stepAfterCount_nonchar fs _ Key.esc _ (by simp)] at hs
    exact (dispatch_frame fs _ _ _ st' hs).2.1
  · intro st' hs
    rw [step_nonchar fs st Key.enter (by simp),
      stepAfterCount_nonchar fs _ Key.enter _ (by simp)] at hs
    exact (dispatch_frame fs _ _ _ st' hs).2.1
  · intro d hdd hfv
    have hdq : d ≠ 'q' := fun h => by rw [h] at hdd; cases hdd
    unfold stepState
    rw [step_char_digit fs st d hdq hdd hfv]
  · intro hlk hm
    rw [if_pos hlk] at hstepg
    unfold stepState
    rw [hstepg]
    simp only [hm, currentPane_setCurrentPane]
  · intro hlk hm
    unfold runKeys
    rw [step_g_arm fs st hlk]
    unfold runKeys
    rw [step_x_filer fs { st with pfx := 0, lastKeyG := true } hm]
    unfold runKeys
    rw [step_g_arm fs _ rfl]
    unfold runKeys
    rw [currentPane_mode_update]

/-- Witness for the amended C4 at the three-entry session with `c = 'x'`. -/
theorem C4_pending_g_witness :
    ((stepState fsThree stThree (Key.char 'g')).lastKeyG = !stThree.lastKeyG) ∧
    (stThree.lastKeyG = false → stThree.app.mode = Mode.filer →
      (runKeys fsThree stThree
          [Key.char 'g', Key.char 'x', Key.char 'g']).app.currentPane.selected =
        stThree.app.currentPane.selected) :=
  ⟨(C4_pending_g fsThree stThree 'x' (by decide) (by decide) rfl).1,
    (C4_pending_g fsThree stThree 'x' (by decide) (by decide) rfl).2.2.2.2.2.2⟩

theorem charsLE_total : ∀ a b : List Char, charsLE a b = true ∨ charsLE b a = true := by
  intro a
  induction a with
  | nil => intro b; left; rfl
  | cons x xs ih =>
      intro b
      cases b with
      | nil => right; rfl
      | cons y ys =>
          unfold charsLE
          rcases Nat.lt_trichotomy x.toNat y.toNat with h | h | h
          · left; rw [if_pos h]
          · rw [if_neg (by omega), if_neg (by omega), if_neg (by omega), if_neg (by omega)]
            exact ih ys
          · right; rw [if_pos h]

theorem charsLE_trans : ∀ a b c : List Char,
    charsLE a b = true → charsLE b c = true → charsLE a c = true := by
  intro a
  induction a with
  | nil => intro b c _ _; rfl
  | cons x xs ih =>
      intro b c hab hbc
      cases b with
      | nil => cases hab
      | cons y ys =>
          cases c with
          | nil => cases hbc
          | cons z zs =>
              unfold charsLE at hab hbc ⊢
              rcases Nat.lt_trichotomy x.toNat y.toNat with h1 | h1 | h1 <;>
                rcases Nat.lt_trichotomy y.toNat z.toNat with h2 | h2 | h2
              all_goals first
                | (rw [if_pos (by omega)])
                | (rw [if_neg (by omega), if_neg (by omega)]
                   rw [if_neg (by omega), if_neg (by omega)] at hab
                   rw [if_neg (by omega), if_neg (by omega)] at hbc
                   exact ih ys zs hab hbc)
                | (rw [if_pos h2] at hbc
                   rw [if_neg (by omega), if_pos (by omega)] at hab
                   cases hab)
                | (rw [if_neg (by omega), if_pos (by omega)] at hab
                   cases hab)
                | (rw [if_neg (by omega), if_pos (by omega)] at hbc
                   cases hbc)

theorem strLE_total (a b : String) : strLE a b = true ∨ strLE b a = true :=
  charsLE_total a.data b.data

theorem strLE_trans {a b c : String} (h1 : strLE a b = true) (h2 : strLE b c = true) :
    strLE a c = true :=
  charsLE_trans a.data b.data c.data h1 h2

theorem sortLE_total (sb : SortBy) : ∀ a b : Entry, sortLE sb a b = true ∨ sortLE sb b a = true := by
  intro a b
  cases sb
  · simp only [sortLE, decide_eq_true_eq]
    exact Nat.le_total _ _
  · simp only [sortLE, decide_eq_true_eq]
    exact Nat.le_total _ _
  · simp only [sortLE, decide_eq_true_eq]
    exact (Nat.le_total _ _).symm
  · exact strLE_total _ _

theorem sortLE_trans (sb : SortBy) : ∀ a b c : Entry,
    sortLE sb a b = true → sortLE sb b c = true → sortLE sb a c = true := by
  intro a b c h1 h2
  cases sb
  · simp only [sortLE, decide_eq_true_eq] at h1 h2 ⊢
    omega
  · simp only [sortLE, decide_eq_true_eq] at h1 h2 ⊢
    omega
  · simp only [sortLE, decide_eq_true_eq] at h1 h2 ⊢
    omega
  · exact strLE_trans h1 h2

/-- C5 counterexample: `refresh` orders `B` before `a` (raw byte order),
which is not case-insensitive-ascending; and sorting two equal-size entries
by Size keeps their prior order `b`, `a` instead of breaking the tie by
case-insensitive name. -/
theorem C5_counterexample :
    ((Pane.refresh fsThree paneEmpty).1.items.map Entry.name = ["B", "a", "c"] ∧
      ¬ (Pane.refresh fsThree paneEmpty).1.items.Pairwise
          (fun a b => strLE (strLower a.name) (strLower b.name) = true)) ∧
    ((apply_sort paneTie SortBy.size).items.map Entry.name = ["b", "a"] ∧
      entryTieB.size.getD 0 = entryTieA.size.getD 0 ∧
      ¬ strLE (strLower entryTieB.name) (strLower entryTieA.name) = true) :=
  ⟨⟨by decide, by decide⟩, by decide, by decide, by decide⟩

/-- C5 amended: `load`/`reload` sort by the raw (case-sensitive, byte
order) file name, and each of the four criteria performs a stable sort by
its primary key alone — the resulting listing is a permutation of the old
one ordered by the criterion key (Name's key is the lowercased name), and
an input already ordered by that key (ties included) is returned unchanged;
no case-insensitive-name tie-break is applied anywhere. -/
theorem C5_sort_order (fs : Fs) (p : Pane) (es : List Entry)
    (h : fs.readDir p.current_dir = some es) :
    ((Pane.refresh fs p).1.items.Pairwise (fun a b => strLE a.name b.name = true) ∧
      List.Perm (Pane.refresh fs p).1.items es) ∧
    (∀ sb : SortBy, (apply_sort p sb).items.Pairwise (fun a b => sortLE sb a b = true) ∧
      List.Perm (apply_sort p sb).items p.items) ∧
    (∀ sb : SortBy, p.items.Pairwise (fun a b => sortLE sb a b = true) →
      (apply_sort p sb).items = p.items) := by
  refine ⟨⟨?_, ?_⟩, fun sb => ⟨?_, ?_⟩, fun sb hs => ?_⟩
  · unfold Pane.refresh
    rw [h]
    show (sortEntriesByName es).Pairwise _
    unfold sortEntriesByName
    exact @sorted_stableSortBy Entry (fun a b => strLE a.name b.name)
      (fun a b => strLE_total a.name b.name)
      (fun a b c hab hbc => strLE_trans hab hbc) es
  · unfold Pane.refresh
    rw [h]
    show List.Perm (sortEntriesByName es) es
    unfold sortEntriesByName
    exact perm_stableSortBy _ es
  · unfold apply_sort
    exact sorted_stableSortBy (sortLE_total sb) (sortLE_trans sb) p.items
  · unfold apply_sort
    exact perm_stableSortBy _ p.items
  · unfold apply_sort
    simp only
    rw [stableSortBy_of_sorted hs]

/-- Witness for the amended C5 at the three-entry filesystem. -/
theorem C5_sort_order_witness :
    (fsThree.readDir paneEmpty.current_dir = some [entryA, entryB, entryC]) ∧
    ((Pane.refresh fsThree paneEmpty).1.items.Pairwise
        (fun a b => strLE a.name b.name = true) ∧
      List.Perm (Pane.refresh fsThree paneEmpty).1.items [entryA, entryB, entryC]) :=
  ⟨by decide,
    (C5_sort_order fsThree paneEmpty [entryA, entryB, entryC] (by decide)).1⟩

/-- Character keys other than `q`/`g`/`G` reach the visual-mode block
unchanged (digits are not count prefixes in VisualSelect). -/
theorem step_visual_char (fs : Fs) (st : LoopState) (anchor : Nat) (c : Char)
    (hm : st.app.mode = .visual anchor)
    (hq : c ≠ 'q') (hg : c ≠ 'g') (hG : c ≠ 'G') :
    step fs st (Key.char c) =
      .next { st with
        app := visualStep st.app anchor (Key.char c) (if st.pfx > 0 then st.pfx else 1),
        pfx := 0, lastKeyG := false } := by
  have hs : step fs st (Key.char c) =
      stepAfterCount fs { st with pfx := 0 } (Key.char c)
        (if st.pfx > 0 then st.pfx else 1) := by
    cases hd : c.isDigit
    · exact step_char_nondigit fs st c hq hd
    · exact step_char_digit_other_mode fs st c hq (by rw [hm]; rfl)
  rw [hs, stepAfterCount_char_other _ _ _ c hg hG]
  simp [dispatch, hm]

theorem step_visual_esc (fs : Fs) (st : LoopState) (anchor : Nat)
    (hm : st.app.mode = .visual anchor) :
    step fs st Key.esc =
      .next { st with
        app := visualStep st.app anchor Key.esc (if st.pfx > 0 then st.pfx else 1),
        pfx := 0 } := by
  rw [step_nonchar fs st Key.esc (by simp),
    stepAfterCount_nonchar fs _ Key.esc _ (by simp)]
  simp [dispatch, hm]

/-- C6: in VisualSelect, after a `j` or `k` move the mark set equals
exactly the inclusive index interval between the fixed anchor and the new
cursor (prior marks are replaced); the interval is symmetric under swapping
the two endpoints; and exiting with `V` or Esc keeps the last mark set and
returns to Browsing. -/
theorem C6_visual_range (fs : Fs) (st : LoopState) (anchor : Nat)
    (hm : st.app.mode = Mode.visual anchor) :
    ((stepState fs st (Key.char 'j')).app.currentPane.marked =
      Finset.Icc
        (min anchor
          (App.onDown^[if st.pfx > 0 then st.pfx else 1] st.app).currentPane.selected)
        (max anchor
          (App.onDown^[if st.pfx > 0 then st.pfx else 1] st.app).currentPane.selected)) ∧
    ((stepState fs st (Key.char 'k')).app.currentPane.marked =
      Finset.Icc
        (min anchor
          (App.onUp^[if st.pfx > 0 then st.pfx else 1] st.app).currentPane.selected)
        (max anchor
          (App.onUp^[if st.pfx > 0 then st.pfx else 1] st.app).currentPane.selected)) ∧
    (∀ a b : Nat, Finset.Icc (min a b) (max a b) = Finset.Icc (min b a) (max b a)) ∧
    ((stepState fs st (Key.char 'V')).app.currentPane.marked = st.app.currentPane.marked ∧
      (stepState fs st (Key.char 'V')).app.mode = Mode.filer) ∧
    ((stepState fs st Key.esc).app.currentPane.marked = st.app.currentPane.marked ∧
      (stepState fs st Key.esc).app.mode = Mode.filer) := by
  refine ⟨?_, ?_, ?_, ⟨?_, ?_⟩, ⟨?_, ?_⟩⟩
  · unfold stepState
    rw [step_visual_char fs st anchor 'j' hm (by decide) (by decide) (by decide)]
    show (visualStep st.app anchor (Key.char 'j') _).currentPane.marked = _
    unfold visualStep
    dsimp only
    rw [if_pos rfl, currentPane_setCurrentPane]
    dsimp only
    rw [rangeMarks_eq_Icc]
    rcases Nat.le_total anchor
        ((App.onDown^[if st.pfx > 0 then st.pfx else 1] st.app).currentPane.selected)
      with hle | hge
    · rw [if_pos hle, min_eq_left hle, max_eq_right hle]
    · rcases Nat.eq_or_lt_of_le hge with heq | hlt
      · rw [heq]
        simp
      · rw [if_neg (by omega), min_eq_right hge, max_eq_left hge]
  · unfold stepState
    rw [step_visual_char fs st anchor 'k' hm (by decide) (by decide) (by decide)]
    show (visualStep st.app anchor (Key.char 'k') _).currentPane.marked = _
    unfold visualStep
    dsimp only
    rw [if_neg (by decide), if_pos rfl, currentPane_setCurrentPane]
    dsimp only
    rw [rangeMarks_eq_Icc]
    rcases Nat.le_total anchor
        ((App.onUp^[if st.pfx > 0 then st.pfx else 1] st.app).currentPane.selected)
      with hle | hge
    · rw [if_pos hle, min_eq_left hle, max_eq_right hle]
    · rcases Nat.eq_or_lt_of_le hge with heq | hlt
      · rw [heq]
        simp
      · rw [if_neg (by omega), min_eq_right hge, max_eq_left hge]
  · intro a b
    rw [min_comm, max_comm]
  · unfold stepState
    rw [step_visual_char fs st anchor 'V' hm (by decide) (by decide) (by decide)]
    show (visualStep st.app anchor (Key.char 'V') (if st.pfx > 0 then st.pfx else 1)).currentPane.marked = st.app.currentPane.marked
    unfold visualStep
    dsimp only
    rw [if_neg (by decide), if_neg (by decide), if_pos rfl, currentPane_mode_update]
  · unfold stepState
    rw [step_visual_char fs st anchor 'V' hm (by decide) (by decide) (by decide)]
    show (visualStep st.app anchor (Key.char 'V') (if st.pfx > 0 then st.pfx else 1)).mode = Mode.filer
    unfold visualStep
    dsimp only
    rw [if_neg (by decide), if_neg (by decide), if_pos rfl]
  · unfold stepState
    rw [step_visual_esc fs st anchor hm]
    show (visualStep st.app anchor Key.esc (if st.pfx > 0 then st.pfx else 1)).currentPane.marked = st.app.currentPane.marked
    unfold visualStep
    rw [currentPane_mode_update]
  · unfold stepState
    rw [step_visual_esc fs st anchor hm]
    show (visualStep st.app anchor Key.esc (if st.pfx > 0 then st.pfx else 1)).mode = Mode.filer
    unfold visualStep
    rfl

/-- Witness for C6 at a reachable VisualSelect state (`V` pressed on the
three-entry listing, then the theorem's `j` clause). -/
theorem C6_visual_range_witness :
    ((runKeys fsThree stThree [Key.char 'V']).app.mode = Mode.visual 0) ∧
    ((stepState fsThree (runKeys fsThree stThree [Key.char 'V'])
        (Key.char 'j')).app.currentPane.marked =
      Finset.Icc
        (min 0 (App.onDown^[if (runKeys fsThree stThree [Key.char 'V']).pfx > 0 then
            (runKeys fsThree stThree [Key.char 'V']).pfx else 1]
          (runKeys fsThree stThree [Key.char 'V']).app).currentPane.selected)
        (max 0 (App.onDown^[if (runKeys fsThree stThree [Key.char 'V']).pfx > 0 then
            (runKeys fsThree stThree [Key.char 'V']).pfx else 1]
          (runKeys fsThree stThree [Key.char 'V']).app).currentPane.selected)) :=
  ⟨by decide,
    (C6_visual_range fsThree (runKeys fsThree stThree [Key.char 'V']) 0 (by decide)).1⟩

theorem step_viewer_j (fs : Fs) (st : LoopState) (content title : String) (offset : Nat)
    (hm : st.app.mode = .viewer content title offset) :
    step fs st (Key.char 'j') =
      .next { st with
        app := { st.app with mode := (Mode.viewer content title
          (min (offset + (if st.pfx > 0 then st.pfx else 1) % 2 ^ 16) u16Max)) },
        pfx := 0, lastKeyG := false } := by
  rw [step_char_nondigit fs st 'j' (by decide) rfl,
    stepAfterCount_char_other _ _ _ 'j' (by decide) (by decide)]
  simp [dispatch, modeDispatch, hm]

theorem step_viewer_k (fs : Fs) (st : LoopState) (content title : String) (offset : Nat)
    (hm : st.app.mode = .viewer content title offset) :
    step fs st (Key.char 'k') =
      .next { st with
        app := { st.app with mode := (Mode.viewer content title
          (offset - (if st.pfx > 0 then st.pfx else 1) % 2 ^ 16)) },
        pfx := 0, lastKeyG := false } := by
  rw [step_char_nondigit fs st 'k' (by decide) rfl,
    stepAfterCount_char_other _ _ _ 'k' (by decide) (by decide)]
  simp [dispatch, modeDispatch, hm]

theorem step_viewer_gg (fs : Fs) (st : LoopState) (content title : String) (offset : Nat)
    (hm : st.app.mode = .viewer content title offset) (hlk : st.lastKeyG = true) :
    step fs st (Key.char 'g') =
      .next { st with
        app := { st.app with mode := .viewer content title 0 },
        pfx := 0, lastKeyG := false } := by
  rw [step_char_nondigit fs st 'g' (by decide) rfl, stepAfterCount_char_g,
    if_pos (by simp [hlk])]
  simp [hm]

theorem step_viewer_G (fs : Fs) (st : LoopState) (content title : String) (offset : Nat)
    (hm : st.app.mode = .viewer content title offset) :
    step fs st (Key.char 'G') =
      .next { st with
        app := { st.app with mode := .viewer content title ((linesCount content - 1) % 2 ^ 16) },
        pfx := 0, lastKeyG := false } := by
  rw [step_char_nondigit fs st 'G' (by decide) rfl, stepAfterCount_char_G]
  simp [hm]

/-- C7 counterexample: opening the one-line file `f.txt` and pressing `j`
is reachable and sets the stored scroll offset to 1, which exceeds
`max_offset = max 0 (total_lines - visible_height) = 0` for the one-line
content at any visible height ≥ 1 — the stored offset is not clamped to
`[0, max_offset]`. -/
theorem C7_counterexample :
    (runKeys fsTxt stTxt [Key.enter, Key.char 'j']).app.mode =
      Mode.viewer "a" "f.txt" 1 ∧
    linesCount "a" = 1 ∧ ¬ (1 ≤ max 0 (linesCount "a" - 1)) :=
  ⟨by decide, by decide, by decide⟩

/-- C7 amended: the Viewing offset is a `u16` maintained by saturating
arithmetic with no clamp to the visible text in the state machine: `j` adds
the count (truncated to u16) saturating at 65535, `k` subtracts saturating
at 0, `gg` sets 0, and `G` sets `total_lines - 1` (not
`total_lines - visible_height`); every stored offset stays in
`[0, 65535]`. -/
theorem C7_viewer_offset (fs : Fs) (st : LoopState) (content title : String) (offset : Nat)
    (hm : st.app.mode = Mode.viewer content title offset) :
    ((stepState fs st (Key.char 'j')).app.mode = Mode.viewer content title
      (min (offset + (if st.pfx > 0 then st.pfx else 1) % 2 ^ 16) u16Max)) ∧
    ((stepState fs st (Key.char 'k')).app.mode = Mode.viewer content title
      (offset - (if st.pfx > 0 then st.pfx else 1) % 2 ^ 16)) ∧
    (st.lastKeyG = true →
      (stepState fs st (Key.char 'g')).app.mode = Mode.viewer content title 0) ∧
    ((stepState fs st (Key.char 'G')).app.mode = Mode.viewer content title
      ((linesCount content - 1) % 2 ^ 16)) ∧
    (min (offset + (if st.pfx > 0 then st.pfx else 1) % 2 ^ 16) u16Max ≤ u16Max ∧
      (offset ≤ u16Max → offset - (if st.pfx > 0 then st.pfx else 1) % 2 ^ 16 ≤ u16Max) ∧
      (linesCount content - 1) % 2 ^ 16 ≤ u16Max ∧ (0 : Nat) ≤ u16Max) := by
  refine ⟨?_, ?_, ?_, ?_, ?_, ?_, ?_, ?_⟩
  · unfold stepState
    rw [step_viewer_j fs st content title offset hm]
  · unfold stepState
    rw [step_viewer_k fs st content title offset hm]
  · intro hlk
    unfold stepState
    rw [step_viewer_gg fs st content title offset hm hlk]
  · unfold stepState
    rw [step_viewer_G fs st content title offset hm]
  · exact Nat.min_le_right _ _
  · intro hoff
    exact Nat.le_trans (Nat.sub_le _ _) hoff
  · have h1 : (linesCount content - 1) % 2 ^ 16 < 2 ^ 16 :=
      Nat.mod_lt _ (by norm_num)
    unfold u16Max
    omega
  · exact Nat.zero_le _

/-- Witness for the amended C7 at the reachable viewer state on `f.txt`. -/
theorem C7_viewer_offset_witness :
    ((runKeys fsTxt stTxt [Key.enter]).app.mode = Mode.viewer "a" "f.txt" 0) ∧
    ((stepState fsTxt (runKeys fsTxt stTxt [Key.enter]) (Key.char 'j')).app.mode =
      Mode.viewer "a" "f.txt"
        (min (0 + (if (runKeys fsTxt stTxt [Key.enter]).pfx > 0 then
            (runKeys fsTxt stTxt [Key.enter]).pfx else 1) % 2 ^ 16) u16Max)) :=
  ⟨by decide,
    (C7_viewer_offset fsTxt (runKeys fsTxt stTxt [Key.enter]) "a" "f.txt" 0 (by decide)).1⟩

/-- C8 counterexample: in Searching mode, pressing `g` does not append to
the query — it is intercepted by the `gg` handler before the Search block
runs, so after `/` then `g` the query is still empty rather than "g". -/
theorem C8_counterexample :
    (runKeys fsThree stThree [Key.char '/', Key.char 'g']).app.mode = Mode.search "" ∧
    Mode.search "" ≠ Mode.search "g" :=
  ⟨by decide, by decide⟩

/-- C8 amended: in Searching and Renaming modes a character keypress
appends to the query (resp. the edit buffer) and backspace removes the last
character — for every character except `q` (global quit), `g` and `G`
(intercepted by the `gg`/`G` handler before mode dispatch, leaving the
session unchanged apart from the pending-`g` flag).  Digits do append in
these modes (they are count prefixes only in Filer/Viewer). -/
theorem C8_edit_buffers (fs : Fs) (st : LoopState) (c : Char)
    (hcq : c ≠ 'q') (hcg : c ≠ 'g') (hcG : c ≠ 'G') :
    (∀ q, st.app.mode = Mode.search q →
      (stepState fs st (Key.char c)).app.mode = Mode.search (strPush q c)) ∧
    (∀ q, st.app.mode = Mode.search q →
      (stepState fs st Key.backspace).app.mode = Mode.search (strPop q)) ∧
    (∀ o b, st.app.mode = Mode.rename o b →
      (stepState fs st (Key.char c)).app.mode = Mode.rename o (strPush b c)) ∧
    (∀ o b, st.app.mode = Mode.rename o b →
      (stepState fs st Key.backspace).app.mode = Mode.rename o (strPop b)) ∧
    (step fs st (Key.char 'q') = StepResult.quit) ∧
    (∀ q, st.app.mode = Mode.search q →
      (stepState fs st (Key.char 'g')).app = st.app ∧
      (stepState fs st (Key.char 'G')).app = st.app) ∧
    (∀ o b, st.app.mode = Mode.rename o b →
      (stepState fs st (Key.char 'g')).app = st.app ∧
      (stepState fs st (Key.char 'G')).app = st.app) := by
  refine ⟨?_, ?_, ?_, ?_, rfl, ?_, ?_⟩
  · intro q hm
    have hs : step fs st (Key.char c) =
        dispatch fs { st with pfx := 0, lastKeyG := false } (Key.char c)
          (if st.pfx > 0 then st.pfx else 1) := by
      cases hd : c.isDigit
      · rw [step_char_nondigit fs st c hcq hd, stepAfterCount_char_other _ _ _ c hcg hcG]
      · rw [step_char_digit_other_mode fs st c hcq (by rw [hm]; rfl),
          stepAfterCount_char_other _ _ _ c hcg hcG]
    unfold stepState
    rw [hs]
    cases hf : find_match st.app.currentPane.items (strPush q c)
        st.app.currentPane.selected <;>
      simp [dispatch, hm, currentPane_mode_update, hf, mode_setCurrentPane]
  · intro q hm
    have hs : step fs st Key.backspace =
        dispatch fs { st with pfx := 0 } Key.backspace
          (if st.pfx > 0 then st.pfx else 1) := by
      rw [step_nonchar fs st Key.backspace (by simp),
        stepAfterCount_nonchar fs _ Key.backspace _ (by simp)]
    unfold stepState
    rw [hs]
    cases hf : find_match st.app.currentPane.items (strPop q)
        st.app.currentPane.selected <;>
      simp [dispatch, hm, currentPane_mode_update, hf, mode_setCurrentPane]
  · intro o b hm
    have hs : step fs st (Key.char c) =
        dispatch fs { st with pfx := 0, lastKeyG := false } (Key.char c)
          (if st.pfx > 0 then st.pfx else 1) := by
      cases hd : c.isDigit
      · rw [step_char_nondigit fs st c hcq hd, stepAfterCount_char_other _ _ _ c hcg hcG]
      · rw [step_char_digit_other_mode fs st c hcq (by rw [hm]; rfl),
          stepAfterCount_char_other _ _ _ c hcg hcG]
    unfold stepState
    rw [hs]
    simp [dispatch, hm]
  · intro o b hm
    have hs : step fs st Key.backspace =
        dispatch fs { st with pfx := 0 } Key.backspace
          (if st.pfx > 0 then st.pfx else 1) := by
      rw [step_nonchar fs st Key.backspace (by simp),
        stepAfterCount_nonchar fs _ Key.backspace _ (by simp)]
    unfold stepState
    rw [hs]
    simp [dispatch, hm]
  · intro q hm
    constructor
    · unfold stepState
      rw [step_char_nondigit fs st 'g' (by decide) rfl, stepAfterCount_char_g]
      by_cases hlk : ({ st with pfx := 0 } : LoopState).lastKeyG
      · rw [if_pos hlk]
        simp [hm]
      · rw [if_neg hlk]
    · unfold stepState
      rw [step_char_nondigit fs st 'G' (by decide) rfl, stepAfterCount_char_G]
      simp [hm]
  · intro o b hm
    constructor
    · unfold stepState
      rw [step_char_nondigit fs st 'g' (by decide) rfl, stepAfterCount_char_g]
      by_cases hlk : ({ st with pfx := 0 } : LoopState).lastKeyG
      · rw [if_pos hlk]
        simp [hm]
      · rw [if_neg hlk]
    · unfold stepState
      rw [step_char_nondigit fs st 'G' (by decide) rfl, stepAfterCount_char_G]
      simp [hm]

/-- Witness for the amended C8: after `/` on the three-entry listing,
typing `a` appends to the (empty) query. -/
theorem C8_edit_buffers_witness :
    ((runKeys fsThree stThree [Key.char '/']).app.mode = Mode.search "") ∧
    ((stepState fsThree (runKeys fsThree stThree [Key.char '/'])
        (Key.char 'a')).app.mode = Mode.search (strPush "" 'a')) :=
  ⟨by decide,
    (C8_edit_buffers fsThree (runKeys fsThree stThree [Key.char '/']) 'a'
      (by decide) (by decide) (by decide)).1 "" (by decide)⟩

end Kura
